import Mathlib

/-!
Verification development for the Hanabi canonical observation encoder
(canonical_encoders.cc).  The C++ code is shallowly embedded: the encoding
buffer (a zero-initialized vector of floats written at explicit offsets)
is modelled as a total function from positions to rationals, each C++ loop
becomes a structural recursion over the corresponding list, and fatal
assertions that guard returned results become Option-valued functions.
Loops that write a set of pairwise distinct positions inside a known window
are rendered as pointwise range updates of the buffer function.
-/

namespace Hanabi

/-- A card: color, rank, and the validity flag of HanabiCard::IsValid. -/
structure HanabiCard where
  color : Nat
  rank : Nat
  valid : Bool
deriving DecidableEq

/-- Per-slot hint knowledge, mirroring HanabiHand::CardKnowledge:
independent color/rank plausibility sets plus directly-hinted values. -/
structure CardKnowledge where
  colorPlausible : Nat → Bool
  rankPlausible : Nat → Bool
  colorHinted : Bool
  hintColor : Nat
  rankHinted : Bool
  hintRank : Nat

instance : Inhabited HanabiCard := ⟨⟨0, 0, false⟩⟩

/-- A hand: the occupied card slots and the parallel knowledge list. -/
structure HanabiHand where
  cards : List HanabiCard
  knowledge : List CardKnowledge

instance : Inhabited HanabiHand := ⟨⟨[], []⟩⟩

/-- HanabiMove::Type. -/
inductive MoveType where
  | play
  | discard
  | revealColor
  | revealRank
  | deal
  | invalid
deriving DecidableEq

/-- HanabiMove: the tagged move record (fields are meaningful per type). -/
structure HanabiMove where
  moveType : MoveType
  targetOffset : Nat
  cardIdx : Nat
  color : Nat
  rank : Nat

/-- HanabiHistoryItem: a past move with acting player, the reveal bitmask
and outcome data (card identity, scored, information token granted). -/
structure HanabiHistoryItem where
  move : HanabiMove
  player : Nat
  revealBitmask : Nat
  scored : Bool
  informationToken : Bool
  color : Nat
  rank : Nat

/-- HanabiObservation: the read-only snapshot consumed by the encoder. -/
structure HanabiObservation where
  hands : List HanabiHand
  discardPile : List HanabiCard
  fireworks : Nat → Nat
  deckSize : Nat
  informationTokens : Nat
  lifeTokens : Nat
  lastMoves : List HanabiHistoryItem

/-- HanabiGame: the static game configuration read by the encoder.
The flag isMinimal models ObservationType() == kMinimal. -/
structure HanabiGame where
  numColors : Nat
  numRanks : Nat
  numPlayers : Nat
  handSize : Nat
  maxDeckSize : Nat
  maxInformationTokens : Nat
  maxLifeTokens : Nat
  numberCardInstances : Nat → Nat → Nat
  isMinimal : Bool

/-- BitsPerCard. -/
def bitsPerCard (g : HanabiGame) : Nat := g.numColors * g.numRanks

/-- CardIndex: one-hot index of a card in color-major ordering. -/
def cardIndex (color rank numRanks : Nat) : Nat := color * numRanks + rank

/-- HandsSectionLength. -/
def handsSectionLength (g : HanabiGame) : Nat :=
  g.numPlayers * g.handSize * bitsPerCard g + g.numPlayers

/-- BoardSectionLength. -/
def boardSectionLength (g : HanabiGame) : Nat :=
  (g.maxDeckSize - g.numPlayers * g.handSize) + g.numColors * g.numRanks +
    g.maxInformationTokens + g.maxLifeTokens

/-- DiscardSectionLength. -/
def discardSectionLength (g : HanabiGame) : Nat := g.maxDeckSize

/-- LastActionSectionLength. -/
def lastActionSectionLength (g : HanabiGame) : Nat :=
  g.numPlayers + 4 + g.numPlayers + g.numColors + g.numRanks +
    g.handSize + g.handSize + bitsPerCard g + 2

/-- CardKnowledgeSectionLength. -/
def cardKnowledgeSectionLength (g : HanabiGame) : Nat :=
  g.numPlayers * g.handSize * (bitsPerCard g + g.numColors + g.numRanks)

/-- CanonicalObservationEncoder::Shape. -/
def shape (g : HanabiGame) : List Nat :=
  [handsSectionLength g + boardSectionLength g + discardSectionLength g +
    lastActionSectionLength g +
    (if g.isMinimal then 0 else cardKnowledgeSectionLength g)]

/-- FlatLength: product of the dimensions of a shape. -/
def flatLength (s : List Nat) : Nat := s.foldl (· * ·) 1

/-- The encoding buffer: positions to rational values (floats in C++). -/
abbrev Enc := Nat → ℚ

/-- The zero-initialized buffer. -/
def zeroEnc : Enc := fun _ => 0

/-- Writing one position of the buffer. -/
def upd (b : Enc) (i : Nat) (v : ℚ) : Enc := fun j => if j = i then v else b j

/-- A thermometer write: the loop setting positions off..off+n-1 to 1. -/
def setFirstN (b : Enc) (off n : Nat) : Enc :=
  fun j => if off ≤ j ∧ j < off + n then 1 else b j

/-- GetLastNonDealMove: first history item whose move is not a Deal. -/
def getLastNonDealMove (moves : List HanabiHistoryItem) :
    Option HanabiHistoryItem :=
  moves.find? (fun item => decide (item.move.moveType ≠ MoveType.deal))

/-- Indexing the hands list, as hands[player] in the C++. -/
def nthHand (hands : List HanabiHand) (i : Nat) : HanabiHand :=
  hands.getD i default

/-- Write of one own-hand group: the first entry for a card at the
firework level of its color, the second below it, the third above. -/
def ownHandWrite (fw : Nat → Nat) (card : HanabiCard) (off : Nat)
    (b : Enc) : Enc :=
  if card.rank = fw card.color then upd b off 1
  else if card.rank < fw card.color then upd b (off + 1) 1
  else upd b (off + 2) 1

/-- Loop body of EncodeOwnHand_ over the cards of the observing player:
per card a 3-wide group written by comparing rank to firework level. -/
def encodeOwnHandCards (fireworks : Nat → Nat) :
    List HanabiCard → Nat → Enc → Enc × Nat
  | [], off, b => (b, off)
  | card :: rest, off, b =>
      encodeOwnHandCards fireworks rest (off + 3)
        (ownHandWrite fireworks card off b)

/-- EncodeOwnHand_ : the own-hand trinary summary of hands[0]. -/
def encodeOwnHand_ (g : HanabiGame) (obs : HanabiObservation)
    (start : Nat) (b : Enc) : Enc × Nat :=
  encodeOwnHandCards obs.fireworks (nthHand obs.hands 0).cards start b

/-- CanonicalObservationEncoder::EncodeOwnHand: a hard-coded 5*3 wide
vector; the trailing assert(offset <= len) is modelled by the Option. -/
def encodeOwnHand (g : HanabiGame) (obs : HanabiObservation) : Option Enc :=
  let r := encodeOwnHand_ g obs 0 zeroEnc
  if r.2 ≤ 5 * 3 then some r.1 else none

/-- Card loop of EncodeHands for one player: one-hot per visible card;
the observing player (index 0) is written only when show_own_cards. -/
def encodeHandLoop (g : HanabiGame) (showOwn : Bool) (player : Nat) :
    List HanabiCard → Nat → Enc → Enc × Nat
  | [], off, b => (b, off)
  | card :: rest, off, b =>
      let b1 :=
        if player = 0 then
          (if showOwn then
            upd b (off + cardIndex card.color card.rank g.numRanks) 1
          else b)
        else upd b (off + cardIndex card.color card.rank g.numRanks) 1
      encodeHandLoop g showOwn player rest (off + bitsPerCard g) b1

/-- Player loop of EncodeHands: encode each hand, then skip the bits of
the absent cards of a shorter-than-full hand. -/
def encodeHandsPlayers (g : HanabiGame) (showOwn : Bool) :
    Nat → List HanabiHand → Nat → Enc → Enc × Nat
  | _, [], off, b => (b, off)
  | player, h :: rest, off, b =>
      let r := encodeHandLoop g showOwn player h.cards off b
      let off2 :=
        if h.cards.length < g.handSize then
          r.2 + (g.handSize - h.cards.length) * bitsPerCard g
        else r.2
      encodeHandsPlayers g showOwn (player + 1) rest off2 r.1

/-- Final loop of EncodeHands: one bit per player set when that player
holds fewer than hand_size cards. -/
def encodeMissingBits (g : HanabiGame) :
    Nat → List HanabiHand → Nat → Enc → Enc
  | _, [], _, b => b
  | player, h :: rest, off, b =>
      encodeMissingBits g (player + 1) rest off
        (if h.cards.length < g.handSize then upd b (off + player) 1 else b)

/-- EncodeHands. -/
def encodeHands (g : HanabiGame) (obs : HanabiObservation) (showOwn : Bool)
    (start : Nat) (b : Enc) : Enc × Nat :=
  let r := encodeHandsPlayers g showOwn 0 obs.hands start b
  (encodeMissingBits g 0 obs.hands r.2 r.1, r.2 + g.numPlayers)

/-- Fireworks loop of EncodeBoard: per color a one-hot at progress-1 when
progress is positive, advancing by num_ranks per color. -/
def encodeFireworksLoop (numRanks : Nat) (fw : Nat → Nat) :
    List Nat → Nat → Enc → Enc × Nat
  | [], off, b => (b, off)
  | c :: cs, off, b =>
      let b1 := if 0 < fw c then upd b (off + (fw c - 1)) 1 else b
      encodeFireworksLoop numRanks fw cs (off + numRanks) b1

/-- EncodeBoard: deck thermometer, fireworks one-hots, info and life
token thermometers. -/
def encodeBoard (g : HanabiGame) (obs : HanabiObservation)
    (start : Nat) (b : Enc) : Enc × Nat :=
  let b1 := setFirstN b start obs.deckSize
  let off1 := start + (g.maxDeckSize - g.handSize * g.numPlayers)
  let r := encodeFireworksLoop g.numRanks obs.fireworks
      (List.range g.numColors) off1 b1
  let b3 := setFirstN r.1 r.2 obs.informationTokens
  let off3 := r.2 + g.maxInformationTokens
  let b4 := setFirstN b3 off3 obs.lifeTokens
  (b4, off3 + g.maxLifeTokens)

/-- The discard_counts table: copies of each card value in the pile. -/
def discardCount (numRanks : Nat) (pile : List HanabiCard) (i : Nat) : Nat :=
  pile.countP (fun card => decide (cardIndex card.color card.rank numRanks = i))

/-- Inner rank loop of EncodeDiscards for one color: per card value a
thermometer of its discarded copies over a field of width
NumberCardInstances. -/
def encodeDiscardsRanks (g : HanabiGame) (counts : Nat → Nat) (c : Nat) :
    List Nat → Nat → Enc → Enc × Nat
  | [], off, b => (b, off)
  | r :: rs, off, b =>
      encodeDiscardsRanks g counts c rs (off + g.numberCardInstances c r)
        (setFirstN b off (counts (cardIndex c r g.numRanks)))

/-- Outer color loop of EncodeDiscards (color-major order). -/
def encodeDiscardsColors (g : HanabiGame) (counts : Nat → Nat) :
    List Nat → Nat → Enc → Enc × Nat
  | [], off, b => (b, off)
  | c :: cs, off, b =>
      let r1 := encodeDiscardsRanks g counts c (List.range g.numRanks) off b
      encodeDiscardsColors g counts cs r1.2 r1.1

/-- EncodeDiscards. -/
def encodeDiscards (g : HanabiGame) (obs : HanabiObservation)
    (start : Nat) (b : Enc) : Enc × Nat :=
  encodeDiscardsColors g (discardCount g.numRanks obs.discardPile)
    (List.range g.numColors) start b

/-- One-hot index of the move type (the switch of EncodeLastAction_);
none models the std::abort of the default branch. -/
def moveTypeIndex : MoveType → Option Nat
  | MoveType.play => some 0
  | MoveType.discard => some 1
  | MoveType.revealColor => some 2
  | MoveType.revealRank => some 3
  | _ => none

/-- Whether a move type is a hint (RevealColor or RevealRank). -/
def isHintMove : MoveType → Bool
  | MoveType.revealColor => true
  | MoveType.revealRank => true
  | _ => false

/-- Whether a move type is a Play or a Discard. -/
def isPlayDiscard : MoveType → Bool
  | MoveType.play => true
  | MoveType.discard => true
  | _ => false

/-- Loop writing the reveal-outcome bitmask: bit i of the mask sets the
entry at off+i, for i below hand_size. -/
def writeBitmaskBits (mask handSize off : Nat) (b : Enc) : Enc :=
  fun j => if off ≤ j ∧ j < off + handSize ∧ Nat.testBit mask (j - off)
    then 1 else b j

/-- Body of EncodeLastAction_ for an existing last non-deal move. -/
def encodeLastActionItem (g : HanabiGame) (item : HanabiHistoryItem)
    (start : Nat) (b : Enc) : Option (Enc × Nat) :=
  match moveTypeIndex item.move.moveType with
  | none => none
  | some k =>
    let t := item.move.moveType
    let b1 := upd b (start + item.player) 1
    let off1 := start + g.numPlayers
    let b2 := upd b1 (off1 + k) 1
    let off2 := off1 + 4
    let b3 :=
      if isHintMove t then
        upd b2 (off2 + (item.player + item.move.targetOffset) % g.numPlayers) 1
      else b2
    let off3 := off2 + g.numPlayers
    let b4 := if t = MoveType.revealColor then upd b3 (off3 + item.move.color) 1
      else b3
    let off4 := off3 + g.numColors
    let b5 := if t = MoveType.revealRank then upd b4 (off4 + item.move.rank) 1
      else b4
    let off5 := off4 + g.numRanks
    let b6 := if isHintMove t then
        writeBitmaskBits item.revealBitmask g.handSize off5 b5
      else b5
    let off6 := off5 + g.handSize
    let b7 := if isPlayDiscard t then upd b6 (off6 + item.move.cardIdx) 1
      else b6
    let off7 := off6 + g.handSize
    let b8 := if isPlayDiscard t then
        upd b7 (off7 + cardIndex item.color item.rank g.numRanks) 1
      else b7
    let off8 := off7 + bitsPerCard g
    let b9 :=
      if t = MoveType.play then
        (let ba := if item.scored then upd b8 off8 1 else b8
         if item.informationToken then upd ba (off8 + 1) 1 else ba)
      else b8
    some (b9, off8 + 2)

/-- EncodeLastAction_ : all-zero padding of the full section width when
no non-deal move exists, else the field-by-field encoding. -/
def encodeLastAction_ (g : HanabiGame) (obs : HanabiObservation)
    (start : Nat) (b : Enc) : Option (Enc × Nat) :=
  match getLastNonDealMove obs.lastMoves with
  | none => some (b, start + lastActionSectionLength g)
  | some item => encodeLastActionItem g item start b

/-- CanonicalObservationEncoder::EncodeLastAction on a fresh buffer. -/
def encodeLastActionAcc (g : HanabiGame) (obs : HanabiObservation) :
    Option Enc :=
  (encodeLastAction_ g obs 0 zeroEnc).map Prod.fst

/-- The plausibility-grid write of one knowledge slot: position off+i of
the grid (i in color-major order) is set when both the color i / numRanks
and the rank i % numRanks are still plausible. -/
def knowledgeGridWrite (numColors numRanks : Nat) (kn : CardKnowledge)
    (off : Nat) (b : Enc) : Enc :=
  fun j =>
    if off ≤ j ∧ j < off + numColors * numRanks ∧
        kn.colorPlausible ((j - off) / numRanks) ∧
        kn.rankPlausible ((j - off) % numRanks)
    then 1 else b j

/-- The writes of one knowledge slot: plausibility grid, hinted-color
one-hot, hinted-rank one-hot. -/
def knowledgeSlotWrite (g : HanabiGame) (kn : CardKnowledge) (off : Nat)
    (b : Enc) : Enc :=
  let b1 := knowledgeGridWrite g.numColors g.numRanks kn off b
  let b2 := if kn.colorHinted then upd b1 (off + bitsPerCard g + kn.hintColor) 1
    else b1
  if kn.rankHinted then
    upd b2 (off + bitsPerCard g + g.numColors + kn.hintRank) 1
  else b2

/-- Slot loop of EncodeCardKnowledge over the knowledge list of one
player. -/
def encodeKnowledgeSlots (g : HanabiGame) :
    List CardKnowledge → Nat → Enc → Enc × Nat
  | [], off, b => (b, off)
  | kn :: rest, off, b =>
      encodeKnowledgeSlots g rest
        (off + bitsPerCard g + g.numColors + g.numRanks)
        (knowledgeSlotWrite g kn off b)

/-- Player loop of EncodeCardKnowledge with the shorter-hand padding. -/
def encodeKnowledgePlayers (g : HanabiGame) :
    List HanabiHand → Nat → Enc → Enc × Nat
  | [], off, b => (b, off)
  | h :: rest, off, b =>
      let r := encodeKnowledgeSlots g h.knowledge off b
      let off2 :=
        if h.knowledge.length < g.handSize then
          r.2 + (g.handSize - h.knowledge.length) *
            (bitsPerCard g + g.numColors + g.numRanks)
        else r.2
      encodeKnowledgePlayers g rest off2 r.1

/-- EncodeCardKnowledge. -/
def encodeCardKnowledge (g : HanabiGame) (obs : HanabiObservation)
    (start : Nat) (b : Enc) : Enc × Nat :=
  encodeKnowledgePlayers g obs.hands start b

/-- The initial full-deck card-count table of ComputeCardCount. -/
def initialCardCount (g : HanabiGame) : Nat → Int :=
  fun i =>
    if i < g.numColors * g.numRanks then
      (g.numberCardInstances (i / g.numRanks) (i % g.numRanks) : Int)
    else 0

/-- Total number of cards of the full deck. -/
def fullDeckTotal (g : HanabiGame) : Nat :=
  ∑ c ∈ Finset.range g.numColors, ∑ r ∈ Finset.range g.numRanks,
    g.numberCardInstances c r

/-- Discard loop of ComputeCardCount: one decrement per discarded card. -/
def removeDiscards (numRanks : Nat) :
    List HanabiCard → (Nat → Int) → (Nat → Int)
  | [], cc => cc
  | card :: rest, cc =>
      removeDiscards numRanks rest
        (fun j => if j = cardIndex card.color card.rank numRanks then cc j - 1
          else cc j)

/-- Inner fireworks loop: decrement the counts of ranks 0..n-1 at base. -/
def removeRanks (base : Nat) : Nat → (Nat → Int) → (Nat → Int)
  | 0, cc => cc
  | n + 1, cc =>
      let cc1 := removeRanks base n cc
      fun j => if j = base + n then cc1 j - 1 else cc1 j

/-- Fireworks loop of ComputeCardCount over the colors. -/
def removeFireworks (numRanks : Nat) (fw : Nat → Nat) :
    List Nat → (Nat → Int) → (Nat → Int)
  | [], cc => cc
  | c :: cs, cc => removeFireworks numRanks fw cs
      (removeRanks (c * numRanks) (fw c) cc)

/-- Total number of cards currently held across all hands. -/
def handsTotalCards (hands : List HanabiHand) : Nat :=
  (hands.map (fun h => h.cards.length)).sum

/-- ComputeCardCount: full-deck counts minus discards minus fireworks;
none models the fatal sanity-check failure when the running total does
not match deck size plus cards in hands. -/
def computeCardCount (g : HanabiGame) (obs : HanabiObservation) :
    Option (Nat → Int) :=
  let cc1 := removeDiscards g.numRanks obs.discardPile (initialCardCount g)
  let cc2 := removeFireworks g.numRanks obs.fireworks
      (List.range g.numColors) cc1
  let total : Int := (fullDeckTotal g : Int) - obs.discardPile.length -
      (∑ c ∈ Finset.range g.numColors, (obs.fireworks c : Int))
  if total = (obs.deckSize : Int) + (handsTotalCards obs.hands : Int)
  then some cc2 else none

/-- Width of one knowledge slot (grid plus the two hint one-hots). -/
def perCardLen (g : HanabiGame) : Nat :=
  bitsPerCard g + g.numColors + g.numRanks

/-- The (player, card index) pairs of the occupied hand slots, in the
iteration order of the belief loops. -/
def slotPairs (g : HanabiGame) (hands : List HanabiHand) : List (Nat × Nat) :=
  (List.range g.numPlayers).flatMap
    (fun pid => (List.range (nthHand hands pid).cards.length).map
      (fun cidx => (pid, cidx)))

/-- The count-weighting write of one V0 slot (the first inner loop). -/
def v0SlotMul (g : HanabiGame) (cc : Nat → Int) (base : Nat) (b : Enc) :
    Enc :=
  fun j =>
    if base ≤ j ∧ j < base + bitsPerCard g then b j * (cc (j - base) : ℚ)
    else b j

/-- One slot of the V0 loop: multiply the grid entries by the remaining
counts, abort when the total is not positive, else renormalize. -/
def v0SlotStep (g : HanabiGame) (cc : Nat → Int) (base : Nat) (b : Enc) :
    Option Enc :=
  if (∑ i ∈ Finset.range (bitsPerCard g),
      v0SlotMul g cc base b (base + i)) ≤ 0 then none
  else some (fun j =>
    if base ≤ j ∧ j < base + bitsPerCard g then
      v0SlotMul g cc base b j /
        (∑ i ∈ Finset.range (bitsPerCard g), v0SlotMul g cc base b (base + i))
    else b j)

/-- The V0 loop over all occupied slots. -/
def v0Slots (g : HanabiGame) (cc : Nat → Int) (start pOff cOff : Nat) :
    List (Nat × Nat) → Enc → Option Enc
  | [], b => some b
  | p :: rest, b =>
      match v0SlotStep g cc (start + pOff * p.1 + cOff * p.2) b with
      | none => none
      | some b1 => v0Slots g cc start pOff cOff rest b1

/-- EncodeV0Belief_ : card knowledge in place, then count-weighting and
per-slot renormalization; also returns the card-count table. -/
def encodeV0Belief_ (g : HanabiGame) (obs : HanabiObservation)
    (start : Nat) (b : Enc) : Option (Enc × Nat × (Nat → Int)) :=
  match computeCardCount g obs with
  | none => none
  | some cc =>
    match v0Slots g cc start
        (((encodeCardKnowledge g obs start b).2 - start) / g.numPlayers)
        (((encodeCardKnowledge g obs start b).2 - start) / g.handSize /
          g.numPlayers)
        (slotPairs g obs.hands) (encodeCardKnowledge g obs start b).1 with
    | none => none
    | some b2 =>
      some (b2, (encodeCardKnowledge g obs start b).2 - start, cc)

/-- The expected remaining count of card value i once the current belief
mass of every occupied slot is subtracted (first loop of a V1 step). -/
def v1TotalCards (g : HanabiGame) (hands : List HanabiHand)
    (cc : Nat → Int) (pOff cOff : Nat) (v1 : Enc) (i : Nat) : ℚ :=
  (cc i : ℚ) - ∑ p ∈ Finset.range g.numPlayers,
    ∑ k ∈ Finset.range (nthHand hands p).cards.length,
      v1 (pOff * p + cOff * k + i)

/-- Candidate update of one slot in a V1 step: remaining-elsewhere plus
own belief, clamped at zero, masked by the knowledge grid. -/
def v1NewSlot (g : HanabiGame) (ck : Enc) (tc : Nat → ℚ) (base : Nat)
    (v1 newv : Enc) : Enc :=
  fun j =>
    if base ≤ j ∧ j < base + bitsPerCard g then
      max (tc (j - base) + v1 j) 0 * ck j
    else newv j

/-- Candidate updates of all occupied slots (second loop of a V1 step). -/
def v1NewAll (g : HanabiGame) (ck : Enc) (tc : Nat → ℚ) (pOff cOff : Nat)
    (v1 : Enc) : List (Nat × Nat) → Enc → Enc
  | [], newv => newv
  | p :: rest, newv =>
      v1NewAll g ck tc pOff cOff v1 rest
        (v1NewSlot g ck tc (pOff * p.1 + cOff * p.2) v1 newv)

/-- The damped blend of one slot (third loop of a V1 step). -/
def v1BlendMix (g : HanabiGame) (w : ℚ) (newv : Enc) (base : Nat)
    (v1 : Enc) : Enc :=
  fun j =>
    if base ≤ j ∧ j < base + bitsPerCard g then
      (1 - w) * v1 j + w * newv j
    else v1 j

/-- Damped blend and renormalization of one slot (third loop of a V1
step); abort when the blended total is not positive. -/
def v1BlendSlot (g : HanabiGame) (w : ℚ) (newv : Enc) (base : Nat)
    (v1 : Enc) : Option Enc :=
  if (∑ i ∈ Finset.range (bitsPerCard g),
      v1BlendMix g w newv base v1 (base + i)) ≤ 0 then none
  else some (fun j =>
    if base ≤ j ∧ j < base + bitsPerCard g then
      v1BlendMix g w newv base v1 j /
        (∑ i ∈ Finset.range (bitsPerCard g),
          v1BlendMix g w newv base v1 (base + i))
    else v1 j)

/-- The blend loop over all occupied slots. -/
def v1BlendAll (g : HanabiGame) (w : ℚ) (newv : Enc) (pOff cOff : Nat) :
    List (Nat × Nat) → Enc → Option Enc
  | [], v1 => some v1
  | p :: rest, v1 =>
      match v1BlendSlot g w newv (pOff * p.1 + cOff * p.2) v1 with
      | none => none
      | some v1x => v1BlendAll g w newv pOff cOff rest v1x

/-- One refinement iteration of EncodeV1Belief_. -/
def v1Step (g : HanabiGame) (hands : List HanabiHand) (cc : Nat → Int)
    (ck : Enc) (w : ℚ) (pOff cOff : Nat) (v1 : Enc) : Option Enc :=
  let tc := v1TotalCards g hands cc pOff cOff v1
  let newv := v1NewAll g ck tc pOff cOff v1 (slotPairs g hands) v1
  v1BlendAll g w newv pOff cOff (slotPairs g hands) v1

/-- The fixed-count iteration of EncodeV1Belief_. -/
def v1Iterate (g : HanabiGame) (hands : List HanabiHand) (cc : Nat → Int)
    (ck : Enc) (w : ℚ) (pOff cOff : Nat) : Nat → Enc → Option Enc
  | 0, v1 => some v1
  | n + 1, v1 =>
      match v1Step g hands cc ck w pOff cOff v1 with
      | none => none
      | some v1x => v1Iterate g hands cc ck w pOff cOff n v1x

/-- EncodeV1Belief_ with the iteration count and damping weight as
parameters (the source fixes num_iters = 100 and weight = 0.1). -/
def encodeV1BeliefGen (iters : Nat) (w : ℚ) (g : HanabiGame)
    (obs : HanabiObservation) (start : Nat) (b : Enc) :
    Option (Enc × Nat) :=
  match encodeV0Belief_ g obs 0 (encodeCardKnowledge g obs 0 zeroEnc).1 with
  | none => none
  | some r =>
    match v1Iterate g obs.hands r.2.2
        (encodeCardKnowledge g obs 0 zeroEnc).1 w (r.2.1 / g.numPlayers)
        (r.2.1 / g.handSize / g.numPlayers) iters r.1 with
    | none => none
    | some v1 =>
      some ((fun j => if start ≤ j ∧ j < start + r.2.1 then v1 (j - start)
             else b j), r.2.1)

/-- EncodeV1Belief_ with the constants of the source. -/
def encodeV1Belief_ (g : HanabiGame) (obs : HanabiObservation)
    (start : Nat) (b : Enc) : Option (Enc × Nat) :=
  encodeV1BeliefGen 100 (1 / 10) g obs start b

/-- CanonicalObservationEncoder::Encode: the sections in their fixed
order on a zero buffer, with the belief section replacing the raw card
knowledge unless the observation mode is minimal. -/
def encode (g : HanabiGame) (obs : HanabiObservation) (showOwn : Bool) :
    Option (Enc × Nat) :=
  let r1 := encodeHands g obs showOwn 0 zeroEnc
  let r2 := encodeBoard g obs r1.2 r1.1
  let r3 := encodeDiscards g obs r2.2 r2.1
  match encodeLastAction_ g obs r3.2 r3.1 with
  | none => none
  | some r4 =>
    if g.isMinimal then some r4
    else
      match encodeV0Belief_ g obs r4.2 r4.1 with
      | none => none
      | some r5 => some (r5.1, r4.2 + r5.2.1)

/-! Concrete configurations and observations used to instantiate the
universally quantified theorems below. -/

/-- Per-rank instance counts of the standard deck (3,2,2,2,1). -/
def stdInstances : Nat → Nat → Nat :=
  fun _ r => if r = 0 then 3 else if r = 4 then 1 else 2

/-- The standard two-player game configuration. -/
def gStd : HanabiGame :=
  { numColors := 5, numRanks := 5, numPlayers := 2, handSize := 5,
    maxDeckSize := 50, maxInformationTokens := 8, maxLifeTokens := 3,
    numberCardInstances := stdInstances, isMinimal := false }

/-- An observation whose history holds a single Deal move. -/
def obsDealOnly : HanabiObservation :=
  { hands := [], discardPile := [], fireworks := fun _ => 0, deckSize := 0,
    informationTokens := 0, lifeTokens := 0,
    lastMoves := [{ move := { moveType := MoveType.deal, targetOffset := 0,
                              cardIdx := 0, color := 0, rank := 0 },
                    player := 0, revealBitmask := 0, scored := false,
                    informationToken := false, color := 0, rank := 0 }] }

/-- C2: Shape() is the sum of the Hands, Board, Discards and LastAction
static section formulas, plus the CardKnowledge formula unless the
observation mode is minimal; it reads only the game configuration. -/
theorem shape_eq_static_section_sum (g : HanabiGame) :
    shape g = [g.numPlayers * g.handSize * (g.numColors * g.numRanks) +
      g.numPlayers +
      ((g.maxDeckSize - g.numPlayers * g.handSize) +
        g.numColors * g.numRanks + g.maxInformationTokens +
        g.maxLifeTokens) +
      g.maxDeckSize +
      (g.numPlayers + 4 + g.numPlayers + g.numColors + g.numRanks +
        g.handSize + g.handSize + g.numColors * g.numRanks + 2) +
      (if g.isMinimal then 0
       else g.numPlayers * g.handSize *
         (g.numColors * g.numRanks + g.numColors + g.numRanks))] := rfl

/-- C2 witness: the formula evaluated on the standard configuration. -/
theorem shape_eq_static_section_sum_witness :
    shape gStd = [250 + 2 + (40 + 25 + 8 + 3) + 50 +
      (2 + 4 + 2 + 5 + 5 + 5 + 5 + 25 + 2) + 350] := by
  have h := shape_eq_static_section_sum gStd
  rw [h]
  norm_num [gStd]

/-- C9: with no non-deal move in the history, EncodeLastAction_ writes
nothing while still consuming the full static Last-Action width, and the
EncodeLastAction accessor returns an all-zero vector of that length. -/
theorem lastAction_no_move_zero_padding (g : HanabiGame)
    (obs : HanabiObservation)
    (h : getLastNonDealMove obs.lastMoves = none) :
    (∀ start b, encodeLastAction_ g obs start b =
      some (b, start + lastActionSectionLength g)) ∧
    encodeLastActionAcc g obs = some zeroEnc := by
  constructor
  · intro start b
    simp [encodeLastAction_, h]
  · simp [encodeLastActionAcc, encodeLastAction_, h]

/-- C9 witness: a history holding only a Deal move. -/
theorem lastAction_no_move_zero_padding_witness :
    encodeLastActionAcc gStd obsDealOnly = some zeroEnc :=
  (lastAction_no_move_zero_padding gStd obsDealOnly rfl).2

/-- History item of the scenario of claim C6: a RevealColor hint by
relative player 0 targeting relative player 1 with color 2, affecting
slots 0 and 3 (reveal bitmask 9). -/
def itemRC : HanabiHistoryItem :=
  { move := { moveType := MoveType.revealColor, targetOffset := 1,
              cardIdx := 0, color := 2, rank := 0 },
    player := 0, revealBitmask := 9, scored := false,
    informationToken := false, color := 0, rank := 0 }

/-- An observation whose last move is the hint of claim C6. -/
def obsRevealColorHint : HanabiObservation :=
  { hands := [], discardPile := [], fireworks := fun _ => 0, deckSize := 0,
    informationTokens := 0, lifeTokens := 0, lastMoves := [itemRC] }

/-- Only bits 0 and 3 of the mask 9 are set. -/
theorem testBit_nine (i : Nat) :
    Nat.testBit 9 i = true ↔ i = 0 ∨ i = 3 := by
  match i with
  | 0 => simp
  | 1 => simp [Nat.testBit]
  | 2 => simp [Nat.testBit]
  | 3 => simp [Nat.testBit]
  | n + 4 =>
    have h9 : (9 : Nat) < 2 ^ (n + 4) := by
      calc (9 : Nat) < 16 := by omega
      _ = 2 ^ 4 := by norm_num
      _ ≤ 2 ^ (n + 4) := Nat.pow_le_pow_right (by omega) (by omega)
    simp [Nat.testBit_eq_false_of_lt h9]

/-- C6 counterexample: in the scenario, move-type bit 1 (0-indexed among
the 4 move-type bits, position numPlayers + 1 = 3 here) is 0 — the set
bit is bit 2, at position 4 — refuting the claim as stated. -/
theorem lastAction_reveal_color_bit1_clear :
    (encodeLastActionAcc gStd obsRevealColorHint).map
      (fun b => (b 3, b 4)) = some (0, 1) := by decide

/-- C6 amended: for a last non-deal move that is a RevealColor hint by
relative player 0 targeting relative player 1 with color 2 affecting
slots 0 and 3, the Last-Action section one-hots acting player 0, sets
move-type bit 2 (0-indexed among the 4 move-type bits), sets the target
bit of player 1 and color bit 2, leaves the rank field all zero, and
sets exactly bits 0 and 3 of the hint-outcome bitmask. -/
theorem lastAction_reveal_color_scenario (g : HanabiGame)
    (obs : HanabiObservation) (item : HanabiHistoryItem)
    (hfind : getLastNonDealMove obs.lastMoves = some item)
    (hty : item.move.moveType = MoveType.revealColor)
    (hpl : item.player = 0) (htgt : item.move.targetOffset = 1)
    (hcol : item.move.color = 2) (hmask : item.revealBitmask = 9)
    (hP : 2 ≤ g.numPlayers) (hC : 3 ≤ g.numColors) (hHS : 4 ≤ g.handSize) :
    (encodeLastAction_ g obs 0 zeroEnc).map (fun r => r.2) =
      some (lastActionSectionLength g) ∧
    (∀ p < g.numPlayers,
      (encodeLastAction_ g obs 0 zeroEnc).map (fun r => r.1 p) =
        some (if p = 0 then 1 else 0)) ∧
    (∀ k < 4,
      (encodeLastAction_ g obs 0 zeroEnc).map
        (fun r => r.1 (g.numPlayers + k)) = some (if k = 2 then 1 else 0)) ∧
    (∀ t < g.numPlayers,
      (encodeLastAction_ g obs 0 zeroEnc).map
        (fun r => r.1 (g.numPlayers + 4 + t)) =
        some (if t = 1 then 1 else 0)) ∧
    (∀ c < g.numColors,
      (encodeLastAction_ g obs 0 zeroEnc).map
        (fun r => r.1 (2 * g.numPlayers + 4 + c)) =
        some (if c = 2 then 1 else 0)) ∧
    (∀ r < g.numRanks,
      (encodeLastAction_ g obs 0 zeroEnc).map
        (fun x => x.1 (2 * g.numPlayers + 4 + g.numColors + r)) = some 0) ∧
    (∀ i < g.handSize,
      (encodeLastAction_ g obs 0 zeroEnc).map
        (fun r => r.1 (2 * g.numPlayers + 4 + g.numColors + g.numRanks + i)) =
        some (if i = 0 ∨ i = 3 then 1 else 0)) := by
  have hmod1 : 1 % g.numPlayers = 1 := Nat.mod_eq_of_lt (by omega)
  have hres : encodeLastAction_ g obs 0 zeroEnc =
      some (writeBitmaskBits 9 g.handSize
          (g.numPlayers + 4 + g.numPlayers + g.numColors + g.numRanks)
          (upd (upd (upd (upd zeroEnc 0 1) (g.numPlayers + 2) 1)
              (g.numPlayers + 4 + 1) 1)
            (g.numPlayers + 4 + g.numPlayers + 2) 1),
        lastActionSectionLength g) := by
    rw [encodeLastAction_, hfind]
    simp [encodeLastActionItem, hty, moveTypeIndex, isHintMove,
      isPlayDiscard, hpl, htgt, hcol, hmask, hmod1, lastActionSectionLength,
      bitsPerCard]
  rw [hres]
  simp only [Option.map_some']
  refine ⟨by trivial, ?_, ?_, ?_, ?_, ?_, ?_⟩
  · intro x hx
    simp only [writeBitmaskBits, upd, zeroEnc]
    split_ifs with h1 h2 h3 h4 h5 <;> first | rfl | omega
  · intro x hx
    simp only [writeBitmaskBits, upd, zeroEnc]
    split_ifs with h1 h2 h3 h4 h5 <;> first | rfl | omega
  · intro x hx
    simp only [writeBitmaskBits, upd, zeroEnc]
    split_ifs with h1 h2 h3 h4 h5 <;> first | rfl | omega
  · intro x hx
    simp only [writeBitmaskBits, upd, zeroEnc]
    split_ifs with h1 h2 h3 h4 h5 <;> first | rfl | omega
  · intro x hx
    simp only [writeBitmaskBits, upd, zeroEnc]
    split_ifs with h1 h2 h3 h4 h5 <;> first | rfl | omega
  · intro x hx
    have hsub : 2 * g.numPlayers + 4 + g.numColors + g.numRanks + x -
        (g.numPlayers + 4 + g.numPlayers + g.numColors + g.numRanks) = x := by
      omega
    simp only [writeBitmaskBits, upd, zeroEnc, hsub, testBit_nine]
    split_ifs with h1 h2 h3 h4 h5 <;> first | rfl | omega

/-- C6 witness: the scenario instantiated on the standard two-player
configuration. -/
theorem lastAction_reveal_color_scenario_witness :
    (encodeLastAction_ gStd obsRevealColorHint 0 zeroEnc).map
      (fun r => r.2) = some (lastActionSectionLength gStd) ∧
    (∀ p < gStd.numPlayers,
      (encodeLastAction_ gStd obsRevealColorHint 0 zeroEnc).map
        (fun r => r.1 p) = some (if p = 0 then 1 else 0)) ∧
    (∀ k < 4,
      (encodeLastAction_ gStd obsRevealColorHint 0 zeroEnc).map
        (fun r => r.1 (gStd.numPlayers + k)) =
        some (if k = 2 then 1 else 0)) ∧
    (∀ t < gStd.numPlayers,
      (encodeLastAction_ gStd obsRevealColorHint 0 zeroEnc).map
        (fun r => r.1 (gStd.numPlayers + 4 + t)) =
        some (if t = 1 then 1 else 0)) ∧
    (∀ c < gStd.numColors,
      (encodeLastAction_ gStd obsRevealColorHint 0 zeroEnc).map
        (fun r => r.1 (2 * gStd.numPlayers + 4 + c)) =
        some (if c = 2 then 1 else 0)) ∧
    (∀ r < gStd.numRanks,
      (encodeLastAction_ gStd obsRevealColorHint 0 zeroEnc).map
        (fun x => x.1 (2 * gStd.numPlayers + 4 + gStd.numColors + r)) =
        some 0) ∧
    (∀ i < gStd.handSize,
      (encodeLastAction_ gStd obsRevealColorHint 0 zeroEnc).map
        (fun r => r.1
          (2 * gStd.numPlayers + 4 + gStd.numColors + gStd.numRanks + i)) =
        some (if i = 0 ∨ i = 3 then 1 else 0)) :=
  lastAction_reveal_color_scenario gStd obsRevealColorHint itemRC rfl rfl
    rfl rfl rfl rfl (by decide) (by decide) (by decide)

/-! Claim C7: the own-hand trinary summary. -/

/-- The cards of the observing player (hands[0]). -/
def ownCards (obs : HanabiObservation) : List HanabiCard :=
  (nthHand obs.hands 0).cards

/-- Which of the three entries of an own-hand group the code sets: entry
0 when the rank equals the firework level of the color of the card,
entry 1 when it is below, entry 2 when it is above. -/
def ownHandBit (fw : Nat → Nat) (card : HanabiCard) (t : Nat) : Bool :=
  if card.rank = fw card.color then t == 0
  else if card.rank < fw card.color then t == 1
  else t == 2

theorem ownHandWrite_eval (fw : Nat → Nat) (card : HanabiCard)
    (off : Nat) (b : Enc) (j : Nat) :
    ownHandWrite fw card off b j =
      if off ≤ j ∧ j < off + 3 ∧ ownHandBit fw card (j - off) then 1
      else b j := by
  rcases Nat.lt_trichotomy card.rank (fw card.color) with h | h | h
  · have hbit : ownHandBit fw card (j - off) = ((j - off) == 1) := by
      rw [ownHandBit, if_neg (by omega), if_pos h]
    rw [ownHandWrite, if_neg (by omega), if_pos h, hbit]
    simp only [upd, beq_iff_eq]
    split_ifs <;> first | rfl | omega
  · have hbit : ownHandBit fw card (j - off) = ((j - off) == 0) := by
      rw [ownHandBit, if_pos h]
    rw [ownHandWrite, if_pos h, hbit]
    simp only [upd, beq_iff_eq]
    split_ifs <;> first | rfl | omega
  · have hbit : ownHandBit fw card (j - off) = ((j - off) == 2) := by
      rw [ownHandBit, if_neg (by omega), if_neg (by omega)]
    rw [ownHandWrite, if_neg (by omega), if_neg (by omega), hbit]
    simp only [upd, beq_iff_eq]
    split_ifs <;> first | rfl | omega

theorem encodeOwnHandCards_len (fw : Nat → Nat) :
    ∀ (cards : List HanabiCard) (off : Nat) (b : Enc),
      (encodeOwnHandCards fw cards off b).2 = off + 3 * cards.length := by
  intro cards
  induction cards with
  | nil => intro off b; simp [encodeOwnHandCards]
  | cons card rest ih =>
    intro off b
    rw [encodeOwnHandCards, ih]
    simp only [List.length_cons]
    omega

theorem encodeOwnHandCards_frame (fw : Nat → Nat) :
    ∀ (cards : List HanabiCard) (off : Nat) (b : Enc) (j : Nat),
      (j < off ∨ off + 3 * cards.length ≤ j) →
      (encodeOwnHandCards fw cards off b).1 j = b j := by
  intro cards
  induction cards with
  | nil => intro off b j _; simp [encodeOwnHandCards]
  | cons card rest ih =>
    intro off b j hj
    simp only [List.length_cons] at hj
    rw [encodeOwnHandCards,
      ih (off + 3) (ownHandWrite fw card off b) j (by omega),
      ownHandWrite_eval]
    split_ifs with h
    · omega
    · rfl

theorem encodeOwnHandCards_val (fw : Nat → Nat) :
    ∀ (cards : List HanabiCard) (off : Nat) (b : Enc) (k : Nat),
      k < cards.length → ∀ t < 3,
      (encodeOwnHandCards fw cards off b).1 (off + 3 * k + t) =
        if ownHandBit fw (cards.getD k default) t then 1
        else b (off + 3 * k + t) := by
  intro cards
  induction cards with
  | nil => intro off b k hk; simp at hk
  | cons card rest ih =>
    intro off b k hk t ht
    rw [encodeOwnHandCards]
    match k with
    | 0 =>
      rw [encodeOwnHandCards_frame fw rest (off + 3)
        (ownHandWrite fw card off b) (off + 3 * 0 + t)
        (Or.inl (by omega)), ownHandWrite_eval]
      have hsub : off + 3 * 0 + t - off = t := by omega
      rw [hsub]
      simp only [List.getD_cons_zero]
      rcases Bool.eq_false_or_eq_true (ownHandBit fw card t) with hB | hB
      · rw [if_pos ⟨by omega, by omega, hB⟩, if_pos hB]
      · rw [if_neg (by simp [hB]), if_neg (by simp [hB])]
    | k + 1 =>
      have harg : off + 3 * (k + 1) + t = (off + 3) + 3 * k + t := by omega
      rw [harg, ih (off + 3) (ownHandWrite fw card off b) k
        (by simpa using hk) t ht, ownHandWrite_eval]
      simp only [List.getD_cons_succ]
      split_ifs with h1 h2
      · rfl
      · exfalso
        obtain ⟨c1, c2, _⟩ := h2
        omega
      · rfl

/-- C7 counterexample: a single own card of rank 0 with firework level 1
for its color — a card strictly below the level.  The code writes entry
1 of its group, not entry 0, so the groups are not ordered
below / at / above as the claim states. -/
def obsBelowCard : HanabiObservation :=
  { hands := [{ cards := [{ color := 0, rank := 0, valid := true }],
                knowledge := [] }],
    discardPile := [], fireworks := fun _ => 1, deckSize := 0,
    informationTokens := 0, lifeTokens := 0, lastMoves := [] }

/-- C7 counterexample theorem: for the below-level card the encoded
group is (0, 1, 0); the claimed below/at/above order would demand its
first entry be 1. -/
theorem own_hand_below_not_first_entry :
    (encodeOwnHand gStd obsBelowCard).map (fun b => (b 0, b 1, b 2)) =
      some (0, 1, 0) := by decide

/-- C7 amended: the own-hand summary writes one 3-entry group per card
of the observing player, exactly one entry of each group set; the three
states are, in order, card at / below / above the current firework level
of the color of the card (the code tests equality first, then below,
then above).  Entries past the occupied groups stay zero. -/
theorem own_hand_trinary_summary (g : HanabiGame) (obs : HanabiObservation)
    (hlen : (ownCards obs).length ≤ 5) :
    ∃ b, encodeOwnHand g obs = some b ∧
      (∀ k < (ownCards obs).length, ∀ t < 3,
        b (3 * k + t) =
          if ownHandBit obs.fireworks ((ownCards obs).getD k default) t
          then 1 else 0) ∧
      (∀ k < (ownCards obs).length,
        b (3 * k) + b (3 * k + 1) + b (3 * k + 2) = 1) ∧
      (∀ j, 3 * (ownCards obs).length ≤ j → b j = 0) := by
  refine ⟨(encodeOwnHandCards obs.fireworks (ownCards obs) 0 zeroEnc).1,
    ?_, ?_, ?_, ?_⟩
  · rw [encodeOwnHand, encodeOwnHand_]
    rw [show (encodeOwnHandCards obs.fireworks (nthHand obs.hands 0).cards
      0 zeroEnc).2 = 0 + 3 * (ownCards obs).length from
      encodeOwnHandCards_len _ _ _ _]
    rw [if_pos (by omega)]
    rfl
  · intro k hk t ht
    have h := encodeOwnHandCards_val obs.fireworks (ownCards obs) 0 zeroEnc
      k hk t ht
    rw [show (3 : Nat) * k + t = 0 + 3 * k + t from by omega, h]
    rfl
  · intro k hk
    have h0 := encodeOwnHandCards_val obs.fireworks (ownCards obs) 0 zeroEnc
      k hk 0 (by omega)
    have h1 := encodeOwnHandCards_val obs.fireworks (ownCards obs) 0 zeroEnc
      k hk 1 (by omega)
    have h2 := encodeOwnHandCards_val obs.fireworks (ownCards obs) 0 zeroEnc
      k hk 2 (by omega)
    rw [show (3 : Nat) * k = 0 + 3 * k + 0 from by omega, h0,
      show (0 : Nat) + 3 * k + 0 + 1 = 0 + 3 * k + 1 from by omega, h1,
      show (0 : Nat) + 3 * k + 0 + 2 = 0 + 3 * k + 2 from by omega, h2]
    set card := (ownCards obs).getD k default with hcard
    rcases Nat.lt_trichotomy card.rank (obs.fireworks card.color)
      with h | h | h
    · have e0 : ownHandBit obs.fireworks card 0 = false := by
        rw [ownHandBit, if_neg (by omega), if_pos h]; try rfl
      have e1 : ownHandBit obs.fireworks card 1 = true := by
        rw [ownHandBit, if_neg (by omega), if_pos h]; try rfl
      have e2 : ownHandBit obs.fireworks card 2 = false := by
        rw [ownHandBit, if_neg (by omega), if_pos h]; try rfl
      rw [e0, e1, e2]
      norm_num [zeroEnc]
    · have e0 : ownHandBit obs.fireworks card 0 = true := by
        rw [ownHandBit, if_pos h]; try rfl
      have e1 : ownHandBit obs.fireworks card 1 = false := by
        rw [ownHandBit, if_pos h]; try rfl
      have e2 : ownHandBit obs.fireworks card 2 = false := by
        rw [ownHandBit, if_pos h]; try rfl
      rw [e0, e1, e2]
      norm_num [zeroEnc]
    · have e0 : ownHandBit obs.fireworks card 0 = false := by
        rw [ownHandBit, if_neg (by omega), if_neg (by omega)]; try rfl
      have e1 : ownHandBit obs.fireworks card 1 = false := by
        rw [ownHandBit, if_neg (by omega), if_neg (by omega)]; try rfl
      have e2 : ownHandBit obs.fireworks card 2 = true := by
        rw [ownHandBit, if_neg (by omega), if_neg (by omega)]; try rfl
      rw [e0, e1, e2]
      norm_num [zeroEnc]
  · intro j hj
    rw [encodeOwnHandCards_frame obs.fireworks (ownCards obs) 0 zeroEnc j
      (Or.inr (by omega))]
    rfl

/-! Claim C8: the Discards section. -/

/-- Injectivity of the color-major card index on in-range ranks. -/
theorem cardIndex_inj {R c r cp rp : Nat} (hr : r < R) (hrp : rp < R)
    (h : cardIndex cp rp R = cardIndex c r R) : cp = c ∧ rp = r := by
  unfold cardIndex at h
  have e1 : (cp * R + rp) / R = cp := by
    rw [Nat.mul_comm, Nat.mul_add_div (by omega), Nat.div_eq_of_lt hrp]
    omega
  have e2 : (c * R + r) / R = c := by
    rw [Nat.mul_comm, Nat.mul_add_div (by omega), Nat.div_eq_of_lt hr]
    omega
  have h1 : cp = c := by rw [← e1, h, e2]
  subst h1
  omega

/-- Sum over the mapped range list as a Finset.range sum. -/
theorem list_range_map_sum {M : Type} [AddCommMonoid M] (f : Nat → M)
    (n : Nat) :
    ((List.range n).map f).sum = ∑ i ∈ Finset.range n, f i := by
  induction n with
  | zero => simp
  | succ n ih =>
    rw [List.range_succ, List.map_append, List.sum_append,
      Finset.sum_range_succ, ih]
    simp

/-- Total width of the discard fields of one color. -/
def rowInstSum (g : HanabiGame) (c : Nat) : Nat :=
  ((List.range g.numRanks).map (fun r => g.numberCardInstances c r)).sum

/-- Offset of the discard field of card value (c, r) inside the Discards
section, in color-major order. -/
def discardFieldOffset (g : HanabiGame) (c r : Nat) : Nat :=
  ((List.range c).map (rowInstSum g)).sum +
    ((List.range r).map (fun rp => g.numberCardInstances c rp)).sum

/-- Number of copies of exactly (c, r) in the discard pile. -/
def pairDiscards (obs : HanabiObservation) (c r : Nat) : Nat :=
  (obs.discardPile.filter
    (fun card => decide (card.color = c ∧ card.rank = r))).length

theorem discardCount_eq_pairDiscards (R c r : Nat) (hr : r < R) :
    ∀ pile : List HanabiCard, (∀ card ∈ pile, card.rank < R) →
      pile.countP
        (fun card => decide (cardIndex card.color card.rank R =
          cardIndex c r R)) =
      (pile.filter
        (fun card => decide (card.color = c ∧ card.rank = r))).length := by
  intro pile
  induction pile with
  | nil => intro _; rfl
  | cons card rest ih =>
    intro hwf
    have hhd : (decide (cardIndex card.color card.rank R = cardIndex c r R))
        = decide (card.color = c ∧ card.rank = r) := by
      by_cases hp : card.color = c ∧ card.rank = r
      · obtain ⟨h1, h2⟩ := hp
        simp [h1, h2]
      · have hidx : cardIndex card.color card.rank R ≠ cardIndex c r R := by
          intro heq
          exact hp ⟨(cardIndex_inj hr (hwf card (by simp)) heq).1,
            (cardIndex_inj hr (hwf card (by simp)) heq).2⟩
        simp [hidx, hp]
    rw [List.countP_cons, List.filter_cons, hhd]
    by_cases hp : card.color = c ∧ card.rank = r <;>
      simp [hp, ih (fun cd hcd => hwf cd (by simp [hcd]))]

theorem encodeDiscardsRanks_len (g : HanabiGame) (counts : Nat → Nat)
    (c : Nat) : ∀ (rs : List Nat) (off : Nat) (b : Enc),
    (encodeDiscardsRanks g counts c rs off b).2 =
      off + (rs.map (fun r => g.numberCardInstances c r)).sum := by
  intro rs
  induction rs with
  | nil => intro off b; simp [encodeDiscardsRanks]
  | cons r rest ih =>
    intro off b
    rw [encodeDiscardsRanks, ih]
    simp only [List.map_cons, List.sum_cons]
    omega

theorem encodeDiscardsRanks_frame (g : HanabiGame) (counts : Nat → Nat)
    (c : Nat) : ∀ (rs : List Nat), (∀ r ∈ rs,
      counts (cardIndex c r g.numRanks) ≤ g.numberCardInstances c r) →
    ∀ (off : Nat) (b : Enc) (j : Nat),
      (j < off ∨ off + (rs.map (fun r => g.numberCardInstances c r)).sum ≤ j) →
      (encodeDiscardsRanks g counts c rs off b).1 j = b j := by
  intro rs
  induction rs with
  | nil => intro _ off b j _; simp [encodeDiscardsRanks]
  | cons r rest ih =>
    intro hcnt off b j hj
    simp only [List.map_cons, List.sum_cons] at hj
    rw [encodeDiscardsRanks,
      ih (fun rp hrp => hcnt rp (by simp [hrp]))
        (off + g.numberCardInstances c r) _ j (by omega)]
    have hc := hcnt r (by simp)
    simp only [setFirstN]
    split_ifs with h
    · omega
    · rfl

theorem encodeDiscardsRanks_val (g : HanabiGame) (counts : Nat → Nat)
    (c : Nat) : ∀ (rs : List Nat), (∀ r ∈ rs,
      counts (cardIndex c r g.numRanks) ≤ g.numberCardInstances c r) →
    ∀ (off : Nat) (b : Enc) (n : Nat), n < rs.length →
    ∀ j < g.numberCardInstances c (rs.getD n 0),
      (encodeDiscardsRanks g counts c rs off b).1
        (off + ((rs.take n).map (fun r => g.numberCardInstances c r)).sum + j)
       = if j < counts (cardIndex c (rs.getD n 0) g.numRanks) then 1
         else b (off +
           ((rs.take n).map (fun r => g.numberCardInstances c r)).sum + j) := by
  intro rs
  induction rs with
  | nil => intro _ off b n hn; simp at hn
  | cons r rest ih =>
    intro hcnt off b n hn j hj
    rw [encodeDiscardsRanks]
    match n with
    | 0 =>
      simp only [List.take_zero, List.map_nil, List.sum_nil,
        List.getD_cons_zero] at hj ⊢
      rw [encodeDiscardsRanks_frame g counts c rest
        (fun rp hrp => hcnt rp (by simp [hrp]))
        (off + g.numberCardInstances c r) _ (off + 0 + j)
        (Or.inl (by omega))]
      have hc := hcnt r (by simp)
      simp only [setFirstN]
      split_ifs with h1 h2 <;> first | rfl | omega
    | n + 1 =>
      simp only [List.take_succ_cons, List.map_cons, List.sum_cons,
        List.getD_cons_succ] at hj ⊢
      have harg : off + (g.numberCardInstances c r +
          ((rest.take n).map (fun rp => g.numberCardInstances c rp)).sum) + j
          = (off + g.numberCardInstances c r) +
            ((rest.take n).map (fun rp => g.numberCardInstances c rp)).sum
            + j := by omega
      rw [harg, ih (fun rp hrp => hcnt rp (by simp [hrp]))
        (off + g.numberCardInstances c r) _ n (by simpa using hn) j hj]
      have hc := hcnt r (by simp)
      simp only [setFirstN]
      split_ifs with h1 h2 <;> first | rfl | omega

theorem encodeDiscardsColors_len (g : HanabiGame) (counts : Nat → Nat) :
    ∀ (cs : List Nat) (off : Nat) (b : Enc),
    (encodeDiscardsColors g counts cs off b).2 =
      off + (cs.map (rowInstSum g)).sum := by
  intro cs
  induction cs with
  | nil => intro off b; simp [encodeDiscardsColors]
  | cons c rest ih =>
    intro off b
    rw [encodeDiscardsColors, ih, encodeDiscardsRanks_len]
    simp only [List.map_cons, List.sum_cons, rowInstSum]
    omega

theorem encodeDiscardsColors_frame (g : HanabiGame) (counts : Nat → Nat) :
    ∀ (cs : List Nat), (∀ c ∈ cs, ∀ r < g.numRanks,
      counts (cardIndex c r g.numRanks) ≤ g.numberCardInstances c r) →
    ∀ (off : Nat) (b : Enc) (j : Nat),
      (j < off ∨ off + (cs.map (rowInstSum g)).sum ≤ j) →
      (encodeDiscardsColors g counts cs off b).1 j = b j := by
  intro cs
  induction cs with
  | nil => intro _ off b j _; simp [encodeDiscardsColors]
  | cons c rest ih =>
    intro hcnt off b j hj
    simp only [List.map_cons, List.sum_cons] at hj
    rw [encodeDiscardsColors]
    rw [encodeDiscardsRanks_len]
    rw [ih (fun cp hcp => hcnt cp (by simp [hcp]))
      (off + ((List.range g.numRanks).map
        (fun r => g.numberCardInstances c r)).sum) _ j
      (by rw [show ((List.range g.numRanks).map
        (fun r => g.numberCardInstances c r)).sum = rowInstSum g c from rfl]
          omega)]
    exact encodeDiscardsRanks_frame g counts c (List.range g.numRanks)
      (fun r hr => hcnt c (by simp) r (List.mem_range.mp hr)) off b j
      (by rw [show ((List.range g.numRanks).map
        (fun r => g.numberCardInstances c r)).sum = rowInstSum g c from rfl]
          omega)

theorem rankPrefix_lt_rowSum (g : HanabiGame) (c r j : Nat)
    (hr : r < g.numRanks) (hj : j < g.numberCardInstances c r) :
    ((List.range r).map (fun rp => g.numberCardInstances c rp)).sum + j <
      rowInstSum g c := by
  rw [rowInstSum, list_range_map_sum, list_range_map_sum]
  have h1 : ∑ i ∈ Finset.range (r + 1), g.numberCardInstances c i ≤
      ∑ i ∈ Finset.range g.numRanks, g.numberCardInstances c i :=
    Finset.sum_le_sum_of_subset
      (Finset.range_subset.mpr (by omega))
  rw [Finset.sum_range_succ] at h1
  omega

theorem encodeDiscardsColors_val (g : HanabiGame) (counts : Nat → Nat) :
    ∀ (cs : List Nat), (∀ c ∈ cs, ∀ r < g.numRanks,
      counts (cardIndex c r g.numRanks) ≤ g.numberCardInstances c r) →
    ∀ (off : Nat) (b : Enc) (n : Nat), n < cs.length →
    ∀ r < g.numRanks, ∀ j < g.numberCardInstances (cs.getD n 0) r,
      (encodeDiscardsColors g counts cs off b).1
        (off + ((cs.take n).map (rowInstSum g)).sum +
          ((List.range r).map
            (fun rp => g.numberCardInstances (cs.getD n 0) rp)).sum + j) =
      if j < counts (cardIndex (cs.getD n 0) r g.numRanks) then 1
      else b (off + ((cs.take n).map (rowInstSum g)).sum +
        ((List.range r).map
          (fun rp => g.numberCardInstances (cs.getD n 0) rp)).sum + j) := by
  intro cs
  induction cs with
  | nil => intro _ off b n hn; simp at hn
  | cons c rest ih =>
    intro hcnt off b n hn r hr j hj
    rw [encodeDiscardsColors]
    have hrowlen : (encodeDiscardsRanks g counts c (List.range g.numRanks)
        off b).2 = off + rowInstSum g c := encodeDiscardsRanks_len g counts
        c (List.range g.numRanks) off b
    have hrcnt : ∀ rp ∈ List.range g.numRanks,
        counts (cardIndex c rp g.numRanks) ≤ g.numberCardInstances c rp :=
      fun rp hrp => hcnt c (by simp) rp (List.mem_range.mp hrp)
    match n with
    | 0 =>
      simp only [List.take_zero, List.map_nil, List.sum_nil,
        List.getD_cons_zero] at hj ⊢
      have htake : (List.range g.numRanks).take r = List.range r := by
        rw [List.take_range]
        simp [Nat.min_eq_left (Nat.le_of_lt hr)]
      have hgetD : (List.range g.numRanks).getD r 0 = r := by
        simp [List.getD, List.getElem?_range hr]
      have hv := encodeDiscardsRanks_val g counts c (List.range g.numRanks)
        hrcnt off b r (by simpa using hr)
      rw [htake, hgetD] at hv
      have hv2 := hv j hj
      have hpos : off + 0 + ((List.range r).map
          (fun rp => g.numberCardInstances c rp)).sum + j =
          off + ((List.range r).map
            (fun rp => g.numberCardInstances c rp)).sum + j := by omega
      rw [hpos, hrowlen,
        encodeDiscardsColors_frame g counts rest
          (fun cp hcp => hcnt cp (by simp [hcp]))
          (off + rowInstSum g c) _ _
          (Or.inl (by have := rankPrefix_lt_rowSum g c r j hr hj; omega)),
        hv2]
    | n + 1 =>
      simp only [List.take_succ_cons, List.map_cons, List.sum_cons,
        List.getD_cons_succ] at hj ⊢
      have hpos : off + (rowInstSum g c +
          ((rest.take n).map (rowInstSum g)).sum) +
          ((List.range r).map
            (fun rp => g.numberCardInstances (rest.getD n 0) rp)).sum + j =
          (off + rowInstSum g c) + ((rest.take n).map (rowInstSum g)).sum +
          ((List.range r).map
            (fun rp => g.numberCardInstances (rest.getD n 0) rp)).sum
          + j := by omega
      rw [hpos, hrowlen,
        ih (fun cp hcp => hcnt cp (by simp [hcp])) (off + rowInstSum g c) _
          n (by simpa using hn) r hr j hj,
        encodeDiscardsRanks_frame g counts c (List.range g.numRanks) hrcnt
          off b _ (Or.inr (by
            rw [show ((List.range g.numRanks).map
              (fun rp => g.numberCardInstances c rp)).sum =
              rowInstSum g c from rfl]
            omega))]

/-- C8: the Discards section holds, in color-major order, one field per
card value of width NumberCardInstances whose first k entries are 1 and
whose remaining entries are 0, with k the number of copies of exactly
that (color, rank) in the discard pile. -/
theorem discards_per_value_thermometer (g : HanabiGame)
    (obs : HanabiObservation)
    (hwf : ∀ card ∈ obs.discardPile,
      card.color < g.numColors ∧ card.rank < g.numRanks)
    (hcnt : ∀ c < g.numColors, ∀ r < g.numRanks,
      pairDiscards obs c r ≤ g.numberCardInstances c r) :
    ∀ c < g.numColors, ∀ r < g.numRanks, ∀ j < g.numberCardInstances c r,
      (encodeDiscards g obs 0 zeroEnc).1 (discardFieldOffset g c r + j) =
        if j < pairDiscards obs c r then 1 else 0 := by
  intro c hc r hr j hj
  have hcountEq : ∀ cp < g.numColors, ∀ rp < g.numRanks,
      discardCount g.numRanks obs.discardPile (cardIndex cp rp g.numRanks) =
      pairDiscards obs cp rp := by
    intro cp hcp rp hrp
    exact discardCount_eq_pairDiscards g.numRanks cp rp hrp obs.discardPile
      (fun card hcard => (hwf card hcard).2)
  have hcnt2 : ∀ cp ∈ List.range g.numColors, ∀ rp < g.numRanks,
      discardCount g.numRanks obs.discardPile (cardIndex cp rp g.numRanks) ≤
        g.numberCardInstances cp rp := by
    intro cp hcp rp hrp
    rw [hcountEq cp (List.mem_range.mp hcp) rp hrp]
    exact hcnt cp (List.mem_range.mp hcp) rp hrp
  have htake : (List.range g.numColors).take c = List.range c := by
    rw [List.take_range]
    simp [Nat.min_eq_left (Nat.le_of_lt hc)]
  have hgetD : (List.range g.numColors).getD c 0 = c := by
    simp [List.getD, List.getElem?_range hc]
  have hv := encodeDiscardsColors_val g
    (discardCount g.numRanks obs.discardPile) (List.range g.numColors)
    hcnt2 0 zeroEnc c (by simpa using hc)
  rw [htake, hgetD] at hv
  have hv2 := hv r hr j hj
  have hpos : discardFieldOffset g c r + j =
      0 + ((List.range c).map (rowInstSum g)).sum +
      ((List.range r).map (fun rp => g.numberCardInstances c rp)).sum
      + j := by
    rw [discardFieldOffset]
    omega
  rw [show encodeDiscards g obs 0 zeroEnc = encodeDiscardsColors g
    (discardCount g.numRanks obs.discardPile) (List.range g.numColors) 0
    zeroEnc from rfl, hpos, hv2, hcountEq c hc r hr]
  rfl

/-- C8 witness: scenario B of the specification — one (0,0) card
discarded in the standard configuration. -/
def obsOneDiscard : HanabiObservation :=
  { hands := [], discardPile := [{ color := 0, rank := 0, valid := true }],
    fireworks := fun _ => 0, deckSize := 0, informationTokens := 0,
    lifeTokens := 0, lastMoves := [] }

theorem discards_per_value_thermometer_witness :
    ((encodeDiscards gStd obsOneDiscard 0 zeroEnc).1
        (discardFieldOffset gStd 0 0 + 0) =
      if 0 < pairDiscards obsOneDiscard 0 0 then 1 else 0) ∧
    ((encodeDiscards gStd obsOneDiscard 0 zeroEnc).1
        (discardFieldOffset gStd 0 0 + 1) =
      if 1 < pairDiscards obsOneDiscard 0 0 then 1 else 0) :=
  ⟨discards_per_value_thermometer gStd obsOneDiscard (by decide) (by decide)
      0 (by decide) 0 (by decide) 0 (by decide),
    discards_per_value_thermometer gStd obsOneDiscard (by decide) (by decide)
      0 (by decide) 0 (by decide) 1 (by decide)⟩

/-! Claim C5: the card-count estimator. -/

theorem removeDiscards_apply (R : Nat) :
    ∀ (pile : List HanabiCard) (cc : Nat → Int) (j : Nat),
      removeDiscards R pile cc j = cc j -
        (pile.countP
          (fun card => decide (cardIndex card.color card.rank R = j)) : Int) := by
  intro pile
  induction pile with
  | nil => intro cc j; simp [removeDiscards]
  | cons card rest ih =>
    intro cc j
    rw [removeDiscards, ih, List.countP_cons]
    by_cases h : cardIndex card.color card.rank R = j <;>
      simp [h] <;> omega

theorem removeRanks_apply (base : Nat) :
    ∀ (n : Nat) (cc : Nat → Int) (j : Nat),
      removeRanks base n cc j = cc j -
        (if base ≤ j ∧ j < base + n then 1 else 0) := by
  intro n
  induction n with
  | zero => intro cc j; simp [removeRanks]; omega
  | succ n ih =>
    intro cc j
    show (if j = base + n then removeRanks base n cc j - 1
      else removeRanks base n cc j) = _
    by_cases h : j = base + n
    · subst h
      rw [if_pos rfl, ih, if_neg (by omega), if_pos (by omega)]
      omega
    · rw [if_neg h, ih]
      by_cases h2 : base ≤ j ∧ j < base + n
      · rw [if_pos h2, if_pos (by omega)]
      · rw [if_neg h2, if_neg (by omega)]

theorem removeFireworks_apply (R : Nat) (fw : Nat → Nat) :
    ∀ (cs : List Nat) (cc : Nat → Int) (j : Nat),
      removeFireworks R fw cs cc j = cc j -
        ((cs.map (fun c =>
          if c * R ≤ j ∧ j < c * R + fw c then (1 : Int) else 0)).sum) := by
  intro cs
  induction cs with
  | nil => intro cc j; simp [removeFireworks]
  | cons c rest ih =>
    intro cc j
    rw [removeFireworks, ih, removeRanks_apply]
    simp only [List.map_cons, List.sum_cons]
    omega

/-- Reindexing a sum over the flat color-major grid. -/
theorem sum_grid (f : Nat → Nat → Int) (C R : Nat) :
    ∑ i ∈ Finset.range (C * R), f (i / R) (i % R) =
      ∑ c ∈ Finset.range C, ∑ r ∈ Finset.range R, f c r := by
  induction C with
  | zero => simp
  | succ C ih =>
    have hsplit : (C + 1) * R = C * R + R := by ring
    rw [hsplit, Finset.range_eq_Ico,
      ← Finset.sum_Ico_consecutive _ (Nat.zero_le (C * R))
        (Nat.le_add_right (C * R) R),
      ← Finset.range_eq_Ico, ih, Finset.sum_Ico_eq_sum_range]
    simp only [Nat.add_sub_cancel_left]
    rw [Finset.sum_range_succ]
    congr 1
    refine Finset.sum_congr rfl ?_
    intro i hi
    have hiR : i < R := Finset.mem_range.mp hi
    have hR : 0 < R := by omega
    have hdiv : (C * R + i) / R = C := by
      rw [Nat.mul_comm, Nat.mul_add_div hR, Nat.div_eq_of_lt hiR]
      omega
    have hmod : (C * R + i) % R = i := by
      rw [Nat.mul_comm, Nat.mul_add_mod, Nat.mod_eq_of_lt hiR]
    rw [hdiv, hmod]

theorem sum_initialCardCount (g : HanabiGame) :
    ∑ i ∈ Finset.range (g.numColors * g.numRanks), initialCardCount g i =
      (fullDeckTotal g : Int) := by
  have h1 : ∀ i ∈ Finset.range (g.numColors * g.numRanks),
      initialCardCount g i =
        (g.numberCardInstances (i / g.numRanks) (i % g.numRanks) : Int) := by
    intro i hi
    rw [initialCardCount, if_pos (Finset.mem_range.mp hi)]
  rw [Finset.sum_congr rfl h1,
    sum_grid (fun c r => (g.numberCardInstances c r : Int)) g.numColors
      g.numRanks, fullDeckTotal]
  push_cast
  rfl

theorem sum_discard_indicators (R CR : Nat) :
    ∀ (pile : List HanabiCard),
      (∀ card ∈ pile, cardIndex card.color card.rank R < CR) →
      ∑ i ∈ Finset.range CR,
        (pile.countP
          (fun card => decide (cardIndex card.color card.rank R = i)) : Int) =
        (pile.length : Int) := by
  intro pile
  induction pile with
  | nil => intro _; simp
  | cons card rest ih =>
    intro hwf
    simp only [List.countP_cons]
    push_cast
    rw [Finset.sum_add_distrib,
      ih (fun cd hcd => hwf cd (by simp [hcd]))]
    have h2 : ∑ i ∈ Finset.range CR,
        (if cardIndex card.color card.rank R = i then (1 : Int) else 0) =
        1 := by
      rw [Finset.sum_ite_eq (Finset.range CR)
        (cardIndex card.color card.rank R) (fun _ => (1 : Int)),
        if_pos (Finset.mem_range.mpr (hwf card (by simp)))]
    simp only [decide_eq_true_eq] at *
    simp [h2]

theorem sum_firework_indicators (R C : Nat) (fw : Nat → Nat)
    (hfw : ∀ c < C, fw c ≤ R) :
    ∑ i ∈ Finset.range (C * R),
      ((List.range C).map (fun c =>
        if c * R ≤ i ∧ i < c * R + fw c then (1 : Int) else 0)).sum =
      ∑ c ∈ Finset.range C, (fw c : Int) := by
  have h1 : ∀ i, ((List.range C).map (fun c =>
      if c * R ≤ i ∧ i < c * R + fw c then (1 : Int) else 0)).sum =
      ∑ c ∈ Finset.range C,
        (if c * R ≤ i ∧ i < c * R + fw c then (1 : Int) else 0) := by
    intro i
    exact list_range_map_sum _ C
  rw [Finset.sum_congr rfl (fun i _ => h1 i), Finset.sum_comm]
  refine Finset.sum_congr rfl ?_
  intro c hc
  have hcC := Finset.mem_range.mp hc
  have hsub : Finset.Ico (c * R) (c * R + fw c) ⊆
      Finset.range (C * R) := by
    intro x hx
    rw [Finset.mem_Ico] at hx
    rw [Finset.mem_range]
    have h3 : c * R + fw c ≤ C * R :=
      calc c * R + fw c ≤ c * R + R := by
            have := hfw c hcC
            omega
        _ = (c + 1) * R := by ring
        _ ≤ C * R := Nat.mul_le_mul_right R (by omega)
    omega
  have h2 : ∀ i, (c * R ≤ i ∧ i < c * R + fw c) ↔
      i ∈ Finset.Ico (c * R) (c * R + fw c) := by
    intro i
    rw [Finset.mem_Ico]
  rw [Finset.sum_congr rfl (fun i _ => by rw [if_congr (h2 i) rfl rfl])]
  rw [Finset.sum_ite_mem, Finset.inter_eq_right.mpr hsub]
  simp [Nat.card_Ico]

/-- The pointwise closed form of the card-count table. -/
theorem cardCountTable_apply (g : HanabiGame) (obs : HanabiObservation)
    (j : Nat) :
    removeFireworks g.numRanks obs.fireworks (List.range g.numColors)
      (removeDiscards g.numRanks obs.discardPile (initialCardCount g)) j =
    initialCardCount g j -
      (obs.discardPile.countP (fun card =>
        decide (cardIndex card.color card.rank g.numRanks = j)) : Int) -
      ((List.range g.numColors).map (fun c =>
        if c * g.numRanks ≤ j ∧ j < c * g.numRanks + obs.fireworks c
        then (1 : Int) else 0)).sum := by
  rw [removeFireworks_apply, removeDiscards_apply]

theorem fw_indicator_single (R C j : Nat) (fw : Nat → Nat)
    (hj : j < C * R) (hfw : ∀ c < C, fw c ≤ R) :
    ((List.range C).map (fun c =>
      if c * R ≤ j ∧ j < c * R + fw c then (1 : Int) else 0)).sum =
      if j % R < fw (j / R) then 1 else 0 := by
  have hR : 0 < R := by
    rcases Nat.eq_zero_or_pos R with h | h
    · rw [h, Nat.mul_zero] at hj
      omega
    · exact h
  have hjC : j / R < C := (Nat.div_lt_iff_lt_mul hR).mpr hj
  have hdm : j / R * R + j % R = j := Nat.div_add_mod' j R
  have hmodlt : j % R < R := Nat.mod_lt j hR
  rw [list_range_map_sum]
  rw [Finset.sum_eq_single (j / R)]
  · by_cases h : j % R < fw (j / R)
    · rw [if_pos ⟨by omega, by omega⟩, if_pos h]
    · rw [if_neg (by omega), if_neg h]
  · intro c hc hne
    rw [if_neg]
    intro hcond
    have hcR : fw c ≤ R := hfw c (Finset.mem_range.mp hc)
    have h1 : c ≤ j / R := (Nat.le_div_iff_mul_le hR).mpr hcond.1
    have h2 : j / R < c + 1 := (Nat.div_lt_iff_lt_mul hR).mpr
      (by have := hcond.2; calc j < c * R + fw c := this
            _ ≤ c * R + R := by omega
            _ = (c + 1) * R := by ring)
    omega
  · intro hnot
    exact absurd (Finset.mem_range.mpr hjC) hnot

/-- Upper bound of the flat card index. -/
theorem cardIndex_lt {C R c r : Nat} (hc : c < C) (hr : r < R) :
    cardIndex c r R < C * R :=
  calc cardIndex c r R < c * R + R := by rw [cardIndex]; omega
    _ = (c + 1) * R := by ring
    _ ≤ C * R := Nat.mul_le_mul_right R (by omega)

/-- C5 amended: a successful ComputeCardCount returns counts summing to
deck size plus cards in hands; the counts are additionally non-negative
in every entry provided no card value has more discarded copies plus
fireworks-implied plays than its instance count (the code checks only
the total, so a desynchronized observation can pass the check with a
negative entry). -/
theorem computeCardCount_success_sum (g : HanabiGame)
    (obs : HanabiObservation)
    (hwf : ∀ card ∈ obs.discardPile,
      card.color < g.numColors ∧ card.rank < g.numRanks)
    (hfw : ∀ c < g.numColors, obs.fireworks c ≤ g.numRanks) :
    ∀ cc, computeCardCount g obs = some cc →
      (∑ i ∈ Finset.range (g.numColors * g.numRanks), cc i =
        (obs.deckSize : Int) + (handsTotalCards obs.hands : Int)) ∧
      ((∀ c < g.numColors, ∀ r < g.numRanks,
          (pairDiscards obs c r : Int) +
            (if r < obs.fireworks c then 1 else 0) ≤
            (g.numberCardInstances c r : Int)) →
        ∀ i < g.numColors * g.numRanks, 0 ≤ cc i) := by
  intro cc hcc
  rw [computeCardCount] at hcc
  split_ifs at hcc with htot
  rw [Option.some.injEq] at hcc
  subst hcc
  constructor
  · rw [Finset.sum_congr rfl
      (fun i _ => cardCountTable_apply g obs i)]
    rw [Finset.sum_sub_distrib, Finset.sum_sub_distrib,
      sum_initialCardCount,
      sum_discard_indicators g.numRanks (g.numColors * g.numRanks)
        obs.discardPile
        (fun card hcard => cardIndex_lt (hwf card hcard).1
          (hwf card hcard).2),
      sum_firework_indicators g.numRanks g.numColors obs.fireworks hfw]
    omega
  · intro hcap i hi
    rw [cardCountTable_apply]
    have hR : 0 < g.numRanks := by
      rcases Nat.eq_zero_or_pos g.numRanks with h | h
      · rw [h, Nat.mul_zero] at hi
        omega
      · exact h
    have hiC : i / g.numRanks < g.numColors :=
      (Nat.div_lt_iff_lt_mul hR).mpr hi
    have hmodlt : i % g.numRanks < g.numRanks := Nat.mod_lt i hR
    have hidx : cardIndex (i / g.numRanks) (i % g.numRanks) g.numRanks
        = i := by
      rw [cardIndex]
      exact Nat.div_add_mod' i g.numRanks
    have hd := discardCount_eq_pairDiscards g.numRanks (i / g.numRanks)
      (i % g.numRanks) hmodlt obs.discardPile
      (fun card hcard => (hwf card hcard).2)
    rw [hidx] at hd
    have hd2 : obs.discardPile.countP (fun card =>
        decide (cardIndex card.color card.rank g.numRanks = i)) =
        pairDiscards obs (i / g.numRanks) (i % g.numRanks) := hd
    rw [hd2, fw_indicator_single g.numRanks g.numColors i obs.fireworks
      hi hfw, initialCardCount, if_pos hi]
    have hc := hcap (i / g.numRanks) hiC (i % g.numRanks) hmodlt
    omega

/-- The configuration of the C5 counterexample: one color, two ranks,
one instance of each card value. -/
def gPair : HanabiGame :=
  { numColors := 1, numRanks := 2, numPlayers := 1, handSize := 1,
    maxDeckSize := 2, maxInformationTokens := 1, maxLifeTokens := 1,
    numberCardInstances := fun _ _ => 1, isMinimal := false }

/-- A desynchronized observation: the single (0,0) card was discarded
twice.  The total check still passes (0 cards left = deck 0 + hands 0),
yet the count of (0,0) is -1. -/
def obsOverDiscard : HanabiObservation :=
  { hands := [],
    discardPile := [{ color := 0, rank := 0, valid := true },
                    { color := 0, rank := 0, valid := true }],
    fireworks := fun _ => 0, deckSize := 0, informationTokens := 0,
    lifeTokens := 0, lastMoves := [] }

/-- C5 counterexample: ComputeCardCount returns (does not abort) with a
negative entry, refuting the claimed unconditional non-negativity. -/
theorem computeCardCount_negative_entry :
    (computeCardCount gPair obsOverDiscard).map (fun f => f 0) =
      some (-1) := by decide

/-- A minimal one-color one-rank configuration. -/
def gTiny : HanabiGame :=
  { numColors := 1, numRanks := 1, numPlayers := 1, handSize := 1,
    maxDeckSize := 1, maxInformationTokens := 1, maxLifeTokens := 1,
    numberCardInstances := fun _ _ => 1, isMinimal := false }

/-- A fresh observation of the tiny game: full deck, empty hands. -/
def obsTinyDeck : HanabiObservation :=
  { hands := [], discardPile := [], fireworks := fun _ => 0, deckSize := 1,
    informationTokens := 0, lifeTokens := 0, lastMoves := [] }

/-- C5 witness: the tiny configuration with nothing seen. -/
theorem computeCardCount_success_sum_witness :
    (∑ i ∈ Finset.range (gTiny.numColors * gTiny.numRanks),
        initialCardCount gTiny i =
      (obsTinyDeck.deckSize : Int) +
        (handsTotalCards obsTinyDeck.hands : Int)) ∧
    ((∀ c < gTiny.numColors, ∀ r < gTiny.numRanks,
        (pairDiscards obsTinyDeck c r : Int) +
          (if r < obsTinyDeck.fireworks c then 1 else 0) ≤
          (gTiny.numberCardInstances c r : Int)) →
      ∀ i < gTiny.numColors * gTiny.numRanks,
        0 ≤ initialCardCount gTiny i) :=
  computeCardCount_success_sum gTiny obsTinyDeck
    (by decide) (by decide) (initialCardCount gTiny) rfl

/-! Claim C3: every section write-count equals its static length. -/

theorem encodeHandLoop_len (g : HanabiGame) (showOwn : Bool) (player : Nat) :
    ∀ (cards : List HanabiCard) (off : Nat) (b : Enc),
      (encodeHandLoop g showOwn player cards off b).2 =
        off + cards.length * bitsPerCard g := by
  intro cards
  induction cards with
  | nil => intro off b; simp [encodeHandLoop]
  | cons card rest ih =>
    intro off b
    rw [encodeHandLoop, ih]
    simp only [List.length_cons]
    ring

theorem encodeHandsPlayers_len (g : HanabiGame) (showOwn : Bool) :
    ∀ (hands : List HanabiHand),
      (∀ h ∈ hands, h.cards.length ≤ g.handSize) →
    ∀ (player off : Nat) (b : Enc),
      (encodeHandsPlayers g showOwn player hands off b).2 =
        off + hands.length * (g.handSize * bitsPerCard g) := by
  intro hands
  induction hands with
  | nil => intro _ player off b; simp [encodeHandsPlayers]
  | cons h rest ih =>
    intro hlen player off b
    rw [encodeHandsPlayers,
      ih (fun hd hm => hlen hd (by simp [hm])) (player + 1)]
    rw [encodeHandLoop_len]
    have hc := hlen h (by simp)
    simp only [List.length_cons]
    split_ifs with hlt
    · have : h.cards.length * bitsPerCard g +
          (g.handSize - h.cards.length) * bitsPerCard g =
          g.handSize * bitsPerCard g := by
        rw [← Nat.add_mul]
        congr 1
        omega
      calc off + h.cards.length * bitsPerCard g +
            (g.handSize - h.cards.length) * bitsPerCard g +
            rest.length * (g.handSize * bitsPerCard g)
          = off + (h.cards.length * bitsPerCard g +
            (g.handSize - h.cards.length) * bitsPerCard g) +
            rest.length * (g.handSize * bitsPerCard g) := by omega
        _ = off + g.handSize * bitsPerCard g +
            rest.length * (g.handSize * bitsPerCard g) := by rw [this]
        _ = off + (rest.length + 1) * (g.handSize * bitsPerCard g) := by
            ring
    · have heq : h.cards.length = g.handSize := by omega
      rw [heq]
      ring

theorem encodeHands_len (g : HanabiGame) (obs : HanabiObservation)
    (showOwn : Bool) (hnum : obs.hands.length = g.numPlayers)
    (hlen : ∀ h ∈ obs.hands, h.cards.length ≤ g.handSize)
    (start : Nat) (b : Enc) :
    (encodeHands g obs showOwn start b).2 = start + handsSectionLength g := by
  rw [encodeHands]
  simp only
  rw [encodeHandsPlayers_len g showOwn obs.hands hlen 0 start b, hnum,
    handsSectionLength]
  ring

theorem encodeFireworksLoop_len (numRanks : Nat) (fw : Nat → Nat) :
    ∀ (cs : List Nat) (off : Nat) (b : Enc),
      (encodeFireworksLoop numRanks fw cs off b).2 =
        off + cs.length * numRanks := by
  intro cs
  induction cs with
  | nil => intro off b; simp [encodeFireworksLoop]
  | cons c rest ih =>
    intro off b
    rw [encodeFireworksLoop, ih]
    simp only [List.length_cons]
    ring

theorem encodeBoard_len (g : HanabiGame) (obs : HanabiObservation)
    (start : Nat) (b : Enc) :
    (encodeBoard g obs start b).2 = start + boardSectionLength g := by
  rw [encodeBoard]
  simp only
  rw [encodeFireworksLoop_len, List.length_range, boardSectionLength]
  have : g.handSize * g.numPlayers = g.numPlayers * g.handSize := by ring
  omega

theorem encodeDiscards_len (g : HanabiGame) (obs : HanabiObservation)
    (hdeck : g.maxDeckSize =
      ((List.range g.numColors).map (rowInstSum g)).sum)
    (start : Nat) (b : Enc) :
    (encodeDiscards g obs start b).2 = start + discardSectionLength g := by
  rw [encodeDiscards, encodeDiscardsColors_len, discardSectionLength, hdeck]

theorem encodeLastActionItem_len (g : HanabiGame)
    (item : HanabiHistoryItem) (start : Nat) (b : Enc) :
    ∀ r, encodeLastActionItem g item start b = some r →
      r.2 = start + lastActionSectionLength g := by
  intro r h
  have h2 := congrArg (Option.map Prod.snd) h
  cases hm : item.move.moveType <;>
    simp only [encodeLastActionItem, hm, moveTypeIndex, Option.map_some',
      Option.map_none', Option.some.injEq] at h2 <;>
    first
      | exact absurd h2 (by simp)
      | (rw [← h2]
         simp only [lastActionSectionLength, bitsPerCard]
         omega)

theorem encodeLastAction_len (g : HanabiGame) (obs : HanabiObservation)
    (start : Nat) (b : Enc) :
    ∀ r, encodeLastAction_ g obs start b = some r →
      r.2 = start + lastActionSectionLength g := by
  intro r h
  rw [encodeLastAction_] at h
  cases hl : getLastNonDealMove obs.lastMoves with
  | none =>
    rw [hl] at h
    simp only [Option.some.injEq] at h
    rw [← h]
  | some item =>
    rw [hl] at h
    exact encodeLastActionItem_len g item start b r h

theorem encodeKnowledgeSlots_len (g : HanabiGame) :
    ∀ (kns : List CardKnowledge) (off : Nat) (b : Enc),
      (encodeKnowledgeSlots g kns off b).2 =
        off + kns.length * perCardLen g := by
  intro kns
  induction kns with
  | nil => intro off b; simp [encodeKnowledgeSlots]
  | cons kn rest ih =>
    intro off b
    rw [encodeKnowledgeSlots, ih]
    simp only [List.length_cons, perCardLen]
    ring

theorem encodeKnowledgePlayers_len (g : HanabiGame) :
    ∀ (hands : List HanabiHand),
      (∀ h ∈ hands, h.knowledge.length ≤ g.handSize) →
    ∀ (off : Nat) (b : Enc),
      (encodeKnowledgePlayers g hands off b).2 =
        off + hands.length * (g.handSize * perCardLen g) := by
  intro hands
  induction hands with
  | nil => intro _ off b; simp [encodeKnowledgePlayers]
  | cons h rest ih =>
    intro hlen off b
    rw [encodeKnowledgePlayers, ih (fun hd hm => hlen hd (by simp [hm]))]
    rw [encodeKnowledgeSlots_len]
    have hc := hlen h (by simp)
    simp only [List.length_cons]
    split_ifs with hlt
    · have : h.knowledge.length * perCardLen g +
          (g.handSize - h.knowledge.length) * perCardLen g =
          g.handSize * perCardLen g := by
        rw [← Nat.add_mul]
        congr 1
        omega
      have hkp : (bitsPerCard g + g.numColors + g.numRanks) =
          perCardLen g := rfl
      rw [hkp]
      calc off + h.knowledge.length * perCardLen g +
            (g.handSize - h.knowledge.length) * perCardLen g +
            rest.length * (g.handSize * perCardLen g)
          = off + (h.knowledge.length * perCardLen g +
            (g.handSize - h.knowledge.length) * perCardLen g) +
            rest.length * (g.handSize * perCardLen g) := by omega
        _ = off + g.handSize * perCardLen g +
            rest.length * (g.handSize * perCardLen g) := by rw [this]
        _ = off + (rest.length + 1) * (g.handSize * perCardLen g) := by
            ring
    · have heq : h.knowledge.length = g.handSize := by omega
      rw [heq]
      ring

theorem encodeCardKnowledge_len (g : HanabiGame) (obs : HanabiObservation)
    (hnum : obs.hands.length = g.numPlayers)
    (hkn : ∀ h ∈ obs.hands, h.knowledge.length ≤ g.handSize)
    (start : Nat) (b : Enc) :
    (encodeCardKnowledge g obs start b).2 =
      start + cardKnowledgeSectionLength g := by
  rw [encodeCardKnowledge, encodeKnowledgePlayers_len g obs.hands hkn, hnum,
    cardKnowledgeSectionLength, perCardLen]
  ring

theorem encodeV0Belief_len (g : HanabiGame) (obs : HanabiObservation)
    (hnum : obs.hands.length = g.numPlayers)
    (hkn : ∀ h ∈ obs.hands, h.knowledge.length ≤ g.handSize)
    (start : Nat) (b : Enc) :
    ∀ r, encodeV0Belief_ g obs start b = some r →
      r.2.1 = cardKnowledgeSectionLength g := by
  intro r h
  rw [encodeV0Belief_] at h
  cases hcc : computeCardCount g obs with
  | none => rw [hcc] at h; exact absurd h (by simp)
  | some cc =>
    rw [hcc] at h
    simp only at h
    rw [encodeCardKnowledge_len g obs hnum hkn start b] at h
    cases hv : v0Slots g cc start
        ((start + cardKnowledgeSectionLength g - start) / g.numPlayers)
        ((start + cardKnowledgeSectionLength g - start) / g.handSize /
          g.numPlayers)
        (slotPairs g obs.hands) (encodeCardKnowledge g obs start b).1 with
    | none => rw [hv] at h; exact absurd h (by simp)
    | some b2 =>
      rw [hv] at h
      simp only [Option.some.injEq] at h
      rw [← h]
      simp

theorem encode_len (g : HanabiGame) (obs : HanabiObservation)
    (showOwn : Bool) (hnum : obs.hands.length = g.numPlayers)
    (hlen : ∀ h ∈ obs.hands, h.cards.length ≤ g.handSize)
    (hkn : ∀ h ∈ obs.hands, h.knowledge.length ≤ g.handSize)
    (hdeck : g.maxDeckSize =
      ((List.range g.numColors).map (rowInstSum g)).sum) :
    ∀ r, encode g obs showOwn = some r → r.2 = flatLength (shape g) := by
  intro r h
  rw [encode] at h
  have h1 := encodeHands_len g obs showOwn hnum hlen 0 zeroEnc
  have h2 := encodeBoard_len g obs (encodeHands g obs showOwn 0 zeroEnc).2
    (encodeHands g obs showOwn 0 zeroEnc).1
  have h3 := encodeDiscards_len g obs hdeck
    (encodeBoard g obs (encodeHands g obs showOwn 0 zeroEnc).2
      (encodeHands g obs showOwn 0 zeroEnc).1).2
    (encodeBoard g obs (encodeHands g obs showOwn 0 zeroEnc).2
      (encodeHands g obs showOwn 0 zeroEnc).1).1
  cases hLA : encodeLastAction_ g obs
      (encodeDiscards g obs
        (encodeBoard g obs (encodeHands g obs showOwn 0 zeroEnc).2
          (encodeHands g obs showOwn 0 zeroEnc).1).2
        (encodeBoard g obs (encodeHands g obs showOwn 0 zeroEnc).2
          (encodeHands g obs showOwn 0 zeroEnc).1).1).2
      (encodeDiscards g obs
        (encodeBoard g obs (encodeHands g obs showOwn 0 zeroEnc).2
          (encodeHands g obs showOwn 0 zeroEnc).1).2
        (encodeBoard g obs (encodeHands g obs showOwn 0 zeroEnc).2
          (encodeHands g obs showOwn 0 zeroEnc).1).1).1 with
  | none => rw [hLA] at h; exact absurd h (by simp)
  | some r4 =>
    rw [hLA] at h
    have h4 := encodeLastAction_len g obs _ _ r4 hLA
    rw [h3, h2, h1] at h4
    simp only at h
    split_ifs at h with hmin
    · simp only [Option.some.injEq] at h
      rw [← h, h4, flatLength, shape, if_pos hmin]
      simp [Nat.add_assoc]
    · cases hV0 : encodeV0Belief_ g obs r4.2 r4.1 with
      | none => rw [hV0] at h; exact absurd h (by simp)
      | some r5 =>
        rw [hV0] at h
        simp only [Option.some.injEq] at h
        have h5 := encodeV0Belief_len g obs hnum hkn r4.2 r4.1 r5 hV0
        rw [← h, h4, h5, flatLength, shape, if_neg hmin]
        simp [Nat.add_assoc]

/-- C3: for a well-formed observation every section encoder advances the
cursor by exactly its statically computed section length, and a
successful top-level Encode ends with the cursor at the total Shape
length (the internal section-length assertions hold). -/
theorem section_write_counts_match_static_lengths (g : HanabiGame)
    (obs : HanabiObservation) (showOwn : Bool)
    (hnum : obs.hands.length = g.numPlayers)
    (hlen : ∀ h ∈ obs.hands, h.cards.length ≤ g.handSize)
    (hkn : ∀ h ∈ obs.hands, h.knowledge.length ≤ g.handSize)
    (hdeck : g.maxDeckSize =
      ((List.range g.numColors).map (rowInstSum g)).sum) :
    (∀ start b, (encodeHands g obs showOwn start b).2 =
      start + handsSectionLength g) ∧
    (∀ start b, (encodeBoard g obs start b).2 =
      start + boardSectionLength g) ∧
    (∀ start b, (encodeDiscards g obs start b).2 =
      start + discardSectionLength g) ∧
    (∀ start b r, encodeLastAction_ g obs start b = some r →
      r.2 = start + lastActionSectionLength g) ∧
    (∀ start b, (encodeCardKnowledge g obs start b).2 =
      start + cardKnowledgeSectionLength g) ∧
    (∀ start b r, encodeV0Belief_ g obs start b = some r →
      r.2.1 = cardKnowledgeSectionLength g) ∧
    (∀ r, encode g obs showOwn = some r → r.2 = flatLength (shape g)) :=
  ⟨fun start b => encodeHands_len g obs showOwn hnum hlen start b,
   fun start b => encodeBoard_len g obs start b,
   fun start b => encodeDiscards_len g obs hdeck start b,
   fun start b r h => encodeLastAction_len g obs start b r h,
   fun start b => encodeCardKnowledge_len g obs hnum hkn start b,
   fun start b r h => encodeV0Belief_len g obs hnum hkn start b r h,
   fun r h => encode_len g obs showOwn hnum hlen hkn hdeck r h⟩

/-! Shared characterization of the card-knowledge buffer, used by the
belief claims. -/

instance : Inhabited CardKnowledge :=
  ⟨⟨fun _ => false, fun _ => false, false, 0, false, 0⟩⟩

/-- Whether EncodeCardKnowledge sets entry i of a knowledge slot: grid
entries where both color and rank are plausible, then the hinted-color
one-hot, then the hinted-rank one-hot. -/
def slotSetBit (g : HanabiGame) (kn : CardKnowledge) (i : Nat) : Bool :=
  if i < bitsPerCard g then
    kn.colorPlausible (i / g.numRanks) && kn.rankPlausible (i % g.numRanks)
  else if i < bitsPerCard g + g.numColors then
    kn.colorHinted && decide (bitsPerCard g + kn.hintColor = i)
  else
    kn.rankHinted && decide (bitsPerCard g + g.numColors + kn.hintRank = i)

/-- Pointwise value of one knowledge-slot write. -/
theorem knowledgeSlotWrite_eval (g : HanabiGame) (kn : CardKnowledge)
    (off : Nat) (b : Enc)
    (hc : kn.colorHinted = true → kn.hintColor < g.numColors)
    (hr : kn.rankHinted = true → kn.hintRank < g.numRanks) (j : Nat) :
    knowledgeSlotWrite g kn off b j =
      if off ≤ j ∧ j < off + perCardLen g ∧ slotSetBit g kn (j - off)
      then 1 else b j := by
  have hgrid : knowledgeGridWrite g.numColors g.numRanks kn off b j =
      if off ≤ j ∧ j < off + bitsPerCard g ∧
        (kn.colorPlausible ((j - off) / g.numRanks) &&
          kn.rankPlausible ((j - off) % g.numRanks))
      then 1 else b j := by
    rw [knowledgeGridWrite]
    by_cases h1 : off ≤ j ∧ j < off + g.numColors * g.numRanks ∧
        kn.colorPlausible ((j - off) / g.numRanks) ∧
        kn.rankPlausible ((j - off) % g.numRanks)
    · rw [if_pos h1, if_pos ⟨h1.1, h1.2.1, by
        simp [h1.2.2.1, h1.2.2.2]⟩]
    · rw [if_neg h1, if_neg]
      intro hcond
      obtain ⟨w1, w2, w3⟩ := hcond
      simp only [Bool.and_eq_true] at w3
      exact h1 ⟨w1, w2, w3.1, w3.2⟩
  have hstep : ∀ (c : Bool) (bx : Enc) (p : Nat),
      (if c = true then upd bx p 1 else bx) j =
        if c = true ∧ j = p then 1 else bx j := by
    intro c bx p
    rcases Bool.eq_false_or_eq_true c with hcb | hcb <;>
      simp [hcb, upd]
  rw [knowledgeSlotWrite]
  rw [hstep, hstep, hgrid]
  by_cases h1 : kn.rankHinted = true ∧
      j = off + bitsPerCard g + g.numColors + kn.hintRank
  · have hRb := hr h1.1
    have hs : slotSetBit g kn (j - off) = true := by
      rw [slotSetBit, if_neg (by omega), if_neg (by omega)]
      simp only [h1.1, Bool.true_and, decide_eq_true_eq]
      omega
    rw [if_pos h1, if_pos ⟨by omega,
      by simp only [perCardLen]; omega, hs⟩]
  · rw [if_neg h1]
    by_cases h2 : kn.colorHinted = true ∧
        j = off + bitsPerCard g + kn.hintColor
    · have hCb := hc h2.1
      have hs : slotSetBit g kn (j - off) = true := by
        rw [slotSetBit, if_neg (by omega), if_pos (by omega)]
        simp only [h2.1, Bool.true_and, decide_eq_true_eq]
        omega
      rw [if_pos h2, if_pos ⟨by omega,
        by simp only [perCardLen]; omega, hs⟩]
    · rw [if_neg h2]
      by_cases h3 : off ≤ j ∧ j < off + bitsPerCard g
      · have hbit : slotSetBit g kn (j - off) =
            (kn.colorPlausible ((j - off) / g.numRanks) &&
              kn.rankPlausible ((j - off) % g.numRanks)) := by
          rw [slotSetBit, if_pos (by omega)]
        rcases Bool.eq_false_or_eq_true
            (kn.colorPlausible ((j - off) / g.numRanks) &&
              kn.rankPlausible ((j - off) % g.numRanks)) with hb | hb
        · rw [if_pos ⟨h3.1, h3.2, hb⟩, if_pos ⟨h3.1,
            by simp only [perCardLen]; omega, by rw [hbit]; exact hb⟩]
        · rw [if_neg (by simp [hb]), if_neg]
          intro hcond
          rw [hbit, hb] at hcond
          exact absurd hcond.2.2 (by simp)
      · rw [if_neg (fun hcond => h3 ⟨hcond.1, hcond.2.1⟩), if_neg]
        intro hcond
        obtain ⟨w1, w2, w3⟩ := hcond
        rw [slotSetBit] at w3
        by_cases hb1 : j - off < bitsPerCard g
        · exact h3 ⟨w1, by omega⟩
        · rw [if_neg hb1] at w3
          by_cases hb2 : j - off < bitsPerCard g + g.numColors
          · rw [if_pos hb2] at w3
            simp only [Bool.and_eq_true, decide_eq_true_eq] at w3
            exact h2 ⟨w3.1, by omega⟩
          · rw [if_neg hb2] at w3
            simp only [Bool.and_eq_true, decide_eq_true_eq] at w3
            exact h1 ⟨w3.1, by omega⟩

/-- Well-formedness of a knowledge list: hinted values are in range. -/
def knowledgeListWF (g : HanabiGame) (kns : List CardKnowledge) : Prop :=
  ∀ kn ∈ kns, (kn.colorHinted = true → kn.hintColor < g.numColors) ∧
    (kn.rankHinted = true → kn.hintRank < g.numRanks)

theorem encodeKnowledgeSlots_frame (g : HanabiGame) :
    ∀ (kns : List CardKnowledge), knowledgeListWF g kns →
    ∀ (off : Nat) (b : Enc) (j : Nat),
      (j < off ∨ off + kns.length * perCardLen g ≤ j) →
      (encodeKnowledgeSlots g kns off b).1 j = b j := by
  intro kns
  induction kns with
  | nil => intro _ off b j _; simp [encodeKnowledgeSlots]
  | cons kn rest ih =>
    intro hwf off b j hj
    simp only [List.length_cons] at hj
    have hpc : off + bitsPerCard g + g.numColors + g.numRanks =
        off + perCardLen g := by
      simp only [perCardLen]
      omega
    rw [encodeKnowledgeSlots, hpc,
      ih (fun k hk => hwf k (by simp [hk])) (off + perCardLen g) _ j
        (by have h1 : (rest.length + 1) * perCardLen g =
              perCardLen g + rest.length * perCardLen g := by ring
            omega),
      knowledgeSlotWrite_eval g kn off b (hwf kn (by simp)).1
        (hwf kn (by simp)).2 j]
    rw [if_neg]
    intro hcond
    have h1 : (rest.length + 1) * perCardLen g =
        perCardLen g + rest.length * perCardLen g := by ring
    obtain ⟨w1, w2, _⟩ := hcond
    omega

theorem encodeKnowledgeSlots_val (g : HanabiGame) :
    ∀ (kns : List CardKnowledge), knowledgeListWF g kns →
    ∀ (off : Nat) (b : Enc) (k : Nat), k < kns.length →
    ∀ i < perCardLen g,
      (encodeKnowledgeSlots g kns off b).1 (off + k * perCardLen g + i) =
        if slotSetBit g (kns.getD k default) i then 1
        else b (off + k * perCardLen g + i) := by
  intro kns
  induction kns with
  | nil => intro _ off b k hk; simp at hk
  | cons kn rest ih =>
    intro hwf off b k hk i hi
    have hpc : off + bitsPerCard g + g.numColors + g.numRanks =
        off + perCardLen g := by
      simp only [perCardLen]
      omega
    rw [encodeKnowledgeSlots, hpc]
    match k with
    | 0 =>
      rw [encodeKnowledgeSlots_frame g rest
        (fun kx hkx => hwf kx (by simp [hkx])) (off + perCardLen g) _
        (off + 0 * perCardLen g + i) (Or.inl (by omega)),
        knowledgeSlotWrite_eval g kn off b (hwf kn (by simp)).1
          (hwf kn (by simp)).2]
      have hsub : off + 0 * perCardLen g + i - off = i := by omega
      rw [hsub]
      simp only [List.getD_cons_zero]
      rcases Bool.eq_false_or_eq_true (slotSetBit g kn i) with hb | hb
      · rw [if_pos ⟨by omega, by omega, hb⟩, if_pos hb]
      · rw [if_neg (by simp [hb]), if_neg (by simp [hb])]
    | k + 1 =>
      have harg : off + (k + 1) * perCardLen g + i =
          (off + perCardLen g) + k * perCardLen g + i := by ring
      rw [harg, ih (fun kx hkx => hwf kx (by simp [hkx]))
        (off + perCardLen g) _ k (by simpa using hk) i hi,
        knowledgeSlotWrite_eval g kn off b (hwf kn (by simp)).1
          (hwf kn (by simp)).2]
      simp only [List.getD_cons_succ]
      have hmiss : ¬(off ≤ off + perCardLen g + k * perCardLen g + i ∧
          off + perCardLen g + k * perCardLen g + i < off + perCardLen g ∧
          slotSetBit g kn
            (off + perCardLen g + k * perCardLen g + i - off)) := by
        intro hcond
        obtain ⟨_, w2, _⟩ := hcond
        omega
      rw [if_neg hmiss]

/-- Stride of one player inside the card-knowledge section. -/
def playerStride (g : HanabiGame) : Nat := g.handSize * perCardLen g

theorem encodeKnowledgePlayers_frame (g : HanabiGame) :
    ∀ (hands : List HanabiHand),
      (∀ h ∈ hands, h.knowledge.length ≤ g.handSize) →
      (∀ h ∈ hands, knowledgeListWF g h.knowledge) →
    ∀ (off : Nat) (b : Enc) (j : Nat),
      (j < off ∨ off + hands.length * playerStride g ≤ j) →
      (encodeKnowledgePlayers g hands off b).1 j = b j := by
  intro hands
  induction hands with
  | nil => intro _ _ off b j _; simp [encodeKnowledgePlayers]
  | cons h rest ih =>
    intro hlen hwf off b j hj
    simp only [List.length_cons] at hj
    rw [encodeKnowledgePlayers]
    have hr2 : (encodeKnowledgeSlots g h.knowledge off b).2 =
        off + h.knowledge.length * perCardLen g :=
      encodeKnowledgeSlots_len g h.knowledge off b
    have hstr : (rest.length + 1) * playerStride g =
        playerStride g + rest.length * playerStride g := by ring
    have hoff2 : (if h.knowledge.length < g.handSize then
        (encodeKnowledgeSlots g h.knowledge off b).2 +
          (g.handSize - h.knowledge.length) *
            (bitsPerCard g + g.numColors + g.numRanks)
        else (encodeKnowledgeSlots g h.knowledge off b).2) =
        off + playerStride g := by
      rw [hr2]
      have hc := hlen h (by simp)
      have hplpc : (bitsPerCard g + g.numColors + g.numRanks) =
          perCardLen g := rfl
      split_ifs with hlt
      · rw [hplpc, playerStride]
        have : h.knowledge.length * perCardLen g +
            (g.handSize - h.knowledge.length) * perCardLen g =
            g.handSize * perCardLen g := by
          rw [← Nat.add_mul]
          congr 1
          omega
        omega
      · have heq : h.knowledge.length = g.handSize := by omega
        rw [heq, playerStride]
    rw [hoff2, ih (fun hx hm => hlen hx (by simp [hm]))
      (fun hx hm => hwf hx (by simp [hm])) (off + playerStride g) _ j
      (by omega),
      encodeKnowledgeSlots_frame g h.knowledge (hwf h (by simp)) off b j]
    have hc := hlen h (by simp)
    have hkpc : h.knowledge.length * perCardLen g ≤ playerStride g := by
      rw [playerStride]
      exact Nat.mul_le_mul_right _ hc
    omega

theorem encodeKnowledgePlayers_val (g : HanabiGame) :
    ∀ (hands : List HanabiHand),
      (∀ h ∈ hands, h.knowledge.length ≤ g.handSize) →
      (∀ h ∈ hands, knowledgeListWF g h.knowledge) →
    ∀ (off : Nat) (b : Enc) (p : Nat), p < hands.length →
    ∀ k < g.handSize, ∀ i < perCardLen g,
      (encodeKnowledgePlayers g hands off b).1
        (off + p * playerStride g + k * perCardLen g + i) =
        match (hands.getD p default).knowledge[k]? with
        | some kn => if slotSetBit g kn i then 1
            else b (off + p * playerStride g + k * perCardLen g + i)
        | none => b (off + p * playerStride g + k * perCardLen g + i) := by
  intro hands
  induction hands with
  | nil => intro _ _ off b p hp; simp at hp
  | cons h rest ih =>
    intro hlen hwf off b p hp k hk i hi
    rw [encodeKnowledgePlayers]
    have hr2 : (encodeKnowledgeSlots g h.knowledge off b).2 =
        off + h.knowledge.length * perCardLen g :=
      encodeKnowledgeSlots_len g h.knowledge off b
    have hoff2 : (if h.knowledge.length < g.handSize then
        (encodeKnowledgeSlots g h.knowledge off b).2 +
          (g.handSize - h.knowledge.length) *
            (bitsPerCard g + g.numColors + g.numRanks)
        else (encodeKnowledgeSlots g h.knowledge off b).2) =
        off + playerStride g := by
      rw [hr2]
      have hc := hlen h (by simp)
      have hplpc : (bitsPerCard g + g.numColors + g.numRanks) =
          perCardLen g := rfl
      split_ifs with hlt
      · rw [hplpc, playerStride]
        have : h.knowledge.length * perCardLen g +
            (g.handSize - h.knowledge.length) * perCardLen g =
            g.handSize * perCardLen g := by
          rw [← Nat.add_mul]
          congr 1
          omega
        omega
      · have heq : h.knowledge.length = g.handSize := by omega
        rw [heq, playerStride]
    rw [hoff2]
    have hblock : k * perCardLen g + i < playerStride g := by
      rw [playerStride]
      calc k * perCardLen g + i < (k + 1) * perCardLen g := by
            rw [Nat.add_mul]
            omega
        _ ≤ g.handSize * perCardLen g := Nat.mul_le_mul_right _ (by omega)
    match p with
    | 0 =>
      simp only [List.getD_cons_zero]
      rw [encodeKnowledgePlayers_frame g rest
        (fun hx hm => hlen hx (by simp [hm]))
        (fun hx hm => hwf hx (by simp [hm])) (off + playerStride g) _ _
        (Or.inl (by omega))]
      by_cases hkl : k < h.knowledge.length
      · have hv := encodeKnowledgeSlots_val g h.knowledge
          (hwf h (by simp)) off b k hkl i hi
        have hpos : off + 0 * playerStride g + k * perCardLen g + i =
            off + k * perCardLen g + i := by omega
        rw [hpos, hv]
        rw [List.getElem?_eq_getElem hkl, List.getD_eq_getElem _ _ hkl]
      · have hq : h.knowledge[k]? = none := by
          rw [List.getElem?_eq_none]
          omega
        rw [hq]
        have hkpc : h.knowledge.length * perCardLen g ≤
            k * perCardLen g := Nat.mul_le_mul_right _ (by omega)
        have hpos : off + 0 * playerStride g + k * perCardLen g + i =
            off + k * perCardLen g + i := by omega
        rw [hpos, encodeKnowledgeSlots_frame g h.knowledge
          (hwf h (by simp)) off b _ (Or.inr (by omega))]
    | p + 1 =>
      simp only [List.getD_cons_succ]
      have harg : off + (p + 1) * playerStride g + k * perCardLen g + i =
          (off + playerStride g) + p * playerStride g +
            k * perCardLen g + i := by ring
      rw [harg, ih (fun hx hm => hlen hx (by simp [hm]))
        (fun hx hm => hwf hx (by simp [hm])) (off + playerStride g) _ p
        (by simpa using hp) k hk i hi]
      have hc := hlen h (by simp)
      have hkpc : h.knowledge.length * perCardLen g ≤ playerStride g := by
        rw [playerStride]
        exact Nat.mul_le_mul_right _ hc
      have hfr : (encodeKnowledgeSlots g h.knowledge off b).1
          (off + playerStride g + p * playerStride g +
            k * perCardLen g + i) =
          b (off + playerStride g + p * playerStride g +
            k * perCardLen g + i) :=
        encodeKnowledgeSlots_frame g h.knowledge (hwf h (by simp)) off b _
          (Or.inr (by omega))
      cases hm : (rest.getD p default).knowledge[k]? with
      | none => rw [hfr]
      | some kn => rw [hfr]

/-- Pre-normalization total of one V0 slot on a given buffer. -/
def slotTotal (g : HanabiGame) (cc : Nat → Int) (b : Enc) (base : Nat) :
    ℚ :=
  ∑ i ∈ Finset.range (bitsPerCard g), b (base + i) * (cc i : ℚ)

/-- Start position of the slot of player pk.1, card pk.2 inside the
card-knowledge section (strides of EncodeV0Belief_). -/
def baseOf (g : HanabiGame) (start : Nat) (pk : Nat × Nat) : Nat :=
  start + g.handSize * perCardLen g * pk.1 + perCardLen g * pk.2

theorem v0SlotMul_at (g : HanabiGame) (cc : Nat → Int) (base : Nat)
    (b : Enc) (i : Nat) (hi : i < bitsPerCard g) :
    v0SlotMul g cc base b (base + i) = b (base + i) * (cc i : ℚ) := by
  rw [v0SlotMul]
  rw [if_pos ⟨by omega, by omega⟩]
  have hsub : base + i - base = i := by omega
  rw [hsub]

theorem v0SlotMul_total (g : HanabiGame) (cc : Nat → Int) (base : Nat)
    (b : Enc) :
    (∑ i ∈ Finset.range (bitsPerCard g), v0SlotMul g cc base b (base + i)) =
      slotTotal g cc b base := by
  rw [slotTotal]
  exact Finset.sum_congr rfl
    (fun i hi => v0SlotMul_at g cc base b i (Finset.mem_range.mp hi))

theorem v0SlotStep_none_iff (g : HanabiGame) (cc : Nat → Int) (base : Nat)
    (b : Enc) :
    v0SlotStep g cc base b = none ↔ slotTotal g cc b base ≤ 0 := by
  rw [v0SlotStep, v0SlotMul_total]
  split_ifs with h
  · simp [h]
  · simp [h]

theorem v0SlotStep_some (g : HanabiGame) (cc : Nat → Int) (base : Nat)
    (b : Enc) (h : 0 < slotTotal g cc b base) :
    ∃ b2, v0SlotStep g cc base b = some b2 ∧
      (∀ j, (j < base ∨ base + bitsPerCard g ≤ j) → b2 j = b j) ∧
      (∀ i < bitsPerCard g,
        b2 (base + i) = b (base + i) * (cc i : ℚ) /
          slotTotal g cc b base) := by
  rw [v0SlotStep, v0SlotMul_total, if_neg (not_le.mpr h)]
  refine ⟨_, rfl, ?_, ?_⟩
  · intro j hj
    rw [if_neg (by omega)]
  · intro i hi
    rw [if_pos ⟨by omega, by omega⟩, v0SlotMul_at g cc base b i hi]

theorem slotPairs_flat_pairwise (HS : Nat) (len : Nat → Nat)
    (hlen : ∀ p, len p ≤ HS) :
    ∀ ps : List Nat, ps.Pairwise (· < ·) →
      (ps.flatMap (fun p => (List.range (len p)).map (fun k => (p, k)))
        ).Pairwise
        (fun a b => a.1 * HS + a.2 < b.1 * HS + b.2) := by
  intro ps
  induction ps with
  | nil => intro _; simp
  | cons p rest ih =>
    intro hp
    rw [List.flatMap_cons, List.pairwise_append]
    refine ⟨?_, ih (List.Pairwise.sublist (List.sublist_cons_self p rest)
      hp), ?_⟩
    · rw [List.pairwise_map]
      refine List.Pairwise.imp ?_ (List.pairwise_lt_range (len p))
      intro k1 k2 hk
      show p * HS + k1 < p * HS + k2
      omega
    · intro a ha b hb
      rw [List.mem_map] at ha
      obtain ⟨k, hk, hae⟩ := ha
      rw [List.mem_range] at hk
      rw [List.mem_flatMap] at hb
      obtain ⟨q, hq, hbm⟩ := hb
      rw [List.mem_map] at hbm
      obtain ⟨kq, hkq, hbe⟩ := hbm
      have hpq : p < q := (List.pairwise_cons.mp hp).1 q hq
      rw [← hae, ← hbe]
      have h1 : len p ≤ HS := hlen p
      calc p * HS + k < p * HS + HS := by omega
        _ = (p + 1) * HS := by ring
        _ ≤ q * HS := Nat.mul_le_mul_right HS (by omega)
        _ ≤ q * HS + kq := by omega

theorem slotPairs_pairwise (g : HanabiGame) (hands : List HanabiHand)
    (hlen : ∀ h ∈ hands, h.cards.length ≤ g.handSize) :
    (slotPairs g hands).Pairwise
      (fun a b => a.1 * g.handSize + a.2 < b.1 * g.handSize + b.2) := by
  rw [slotPairs]
  refine slotPairs_flat_pairwise g.handSize
    (fun p => (nthHand hands p).cards.length) ?_ (List.range g.numPlayers)
    (List.pairwise_lt_range g.numPlayers)
  intro p
  show (hands.getD p default).cards.length ≤ g.handSize
  by_cases hp : p < hands.length
  · rw [List.getD_eq_getElem hands default hp]
    exact hlen hands[p] (List.getElem_mem hp)
  · rw [List.getD_eq_default hands default (by omega)]
    exact Nat.zero_le g.handSize

theorem slotPairs_mem (g : HanabiGame) (hands : List HanabiHand)
    (pk : Nat × Nat) :
    pk ∈ slotPairs g hands ↔ pk.1 < g.numPlayers ∧
      pk.2 < (nthHand hands pk.1).cards.length := by
  constructor
  · intro hm
    rw [slotPairs, List.mem_flatMap] at hm
    obtain ⟨p, hp, hmm⟩ := hm
    rw [List.mem_map] at hmm
    obtain ⟨k, hk, heq⟩ := hmm
    rw [List.mem_range] at hp hk
    rw [← heq]
    exact ⟨hp, hk⟩
  · intro hpk
    rw [slotPairs, List.mem_flatMap]
    exact ⟨pk.1, List.mem_range.mpr hpk.1,
      List.mem_map.mpr ⟨pk.2, List.mem_range.mpr hpk.2, rfl⟩⟩

theorem bitsPerCard_le_perCardLen (g : HanabiGame) :
    bitsPerCard g ≤ perCardLen g := by
  simp only [perCardLen]
  omega

theorem baseOf_flat (g : HanabiGame) (start : Nat) (pk : Nat × Nat) :
    baseOf g start pk = start + (pk.1 * g.handSize + pk.2) * perCardLen g := by
  rw [baseOf]
  ring

theorem baseOf_disjoint (g : HanabiGame) (start : Nat) {a b : Nat × Nat}
    (hab : a.1 * g.handSize + a.2 < b.1 * g.handSize + b.2) :
    baseOf g start a + bitsPerCard g ≤ baseOf g start b := by
  rw [baseOf_flat, baseOf_flat]
  have h1 : (a.1 * g.handSize + a.2 + 1) * perCardLen g ≤
      (b.1 * g.handSize + b.2) * perCardLen g :=
    Nat.mul_le_mul_right _ (by omega)
  have h2 : (a.1 * g.handSize + a.2 + 1) * perCardLen g =
      (a.1 * g.handSize + a.2) * perCardLen g + perCardLen g := by ring
  have h3 := bitsPerCard_le_perCardLen g
  omega

theorem baseOf_disjoint_pcl (g : HanabiGame) (start : Nat)
    {a b : Nat × Nat}
    (hab : a.1 * g.handSize + a.2 < b.1 * g.handSize + b.2) :
    baseOf g start a + perCardLen g ≤ baseOf g start b := by
  rw [baseOf_flat, baseOf_flat]
  have h1 : (a.1 * g.handSize + a.2 + 1) * perCardLen g ≤
      (b.1 * g.handSize + b.2) * perCardLen g :=
    Nat.mul_le_mul_right _ (by omega)
  have h2 : (a.1 * g.handSize + a.2 + 1) * perCardLen g =
      (a.1 * g.handSize + a.2) * perCardLen g + perCardLen g := by ring
  omega

theorem slotTotal_congr (g : HanabiGame) (cc : Nat → Int) (b b2 : Enc)
    (base : Nat) (h : ∀ i < bitsPerCard g, b2 (base + i) = b (base + i)) :
    slotTotal g cc b2 base = slotTotal g cc b base := by
  rw [slotTotal, slotTotal]
  exact Finset.sum_congr rfl (fun i hi => by
    rw [h i (Finset.mem_range.mp hi)])

theorem v0Slots_none (g : HanabiGame) (cc : Nat → Int) (start : Nat) :
    ∀ (L : List (Nat × Nat)),
      L.Pairwise (fun a b =>
        a.1 * g.handSize + a.2 < b.1 * g.handSize + b.2) →
    ∀ b : Enc, (∃ pk ∈ L, slotTotal g cc b (baseOf g start pk) ≤ 0) →
      v0Slots g cc start (g.handSize * perCardLen g) (perCardLen g) L b =
        none := by
  intro L
  induction L with
  | nil => intro _ b hex; simp at hex
  | cons pk0 rest ih =>
    intro hpair b hex
    rw [v0Slots]
    have hbase : start + g.handSize * perCardLen g * pk0.1 +
        perCardLen g * pk0.2 = baseOf g start pk0 := rfl
    by_cases h0 : slotTotal g cc b (baseOf g start pk0) ≤ 0
    · rw [hbase, (v0SlotStep_none_iff g cc (baseOf g start pk0) b).mpr h0]
    · obtain ⟨b2, hb2, hfr, _⟩ :=
        v0SlotStep_some g cc (baseOf g start pk0) b (not_le.mp h0)
      rw [hbase, hb2]
      obtain ⟨pk, hpk, hneg⟩ := hex
      rcases List.mem_cons.mp hpk with he | hm
      · rw [he] at hneg
        exact absurd hneg h0
      · refine ih (List.pairwise_cons.mp hpair).2 b2 ⟨pk, hm, ?_⟩
        have hdis := baseOf_disjoint g start
          ((List.pairwise_cons.mp hpair).1 pk hm)
        rw [slotTotal_congr g cc b b2 (baseOf g start pk)
          (fun i hi => hfr (baseOf g start pk + i) (Or.inr (by omega)))]
        · exact hneg

theorem v0Slots_some (g : HanabiGame) (cc : Nat → Int) (start : Nat) :
    ∀ (L : List (Nat × Nat)),
      L.Pairwise (fun a b =>
        a.1 * g.handSize + a.2 < b.1 * g.handSize + b.2) →
    ∀ b : Enc, (∀ pk ∈ L, 0 < slotTotal g cc b (baseOf g start pk)) →
      ∃ b2, v0Slots g cc start (g.handSize * perCardLen g) (perCardLen g)
          L b = some b2 ∧
        (∀ j, (∀ pk ∈ L, j < baseOf g start pk ∨
          baseOf g start pk + bitsPerCard g ≤ j) → b2 j = b j) ∧
        (∀ pk ∈ L, ∀ i < bitsPerCard g,
          b2 (baseOf g start pk + i) =
            b (baseOf g start pk + i) * (cc i : ℚ) /
              slotTotal g cc b (baseOf g start pk)) := by
  intro L
  induction L with
  | nil =>
    intro _ b _
    exact ⟨b, rfl, fun j _ => rfl, fun pk hpk => by simp at hpk⟩
  | cons pk0 rest ih =>
    intro hpair b hpos
    rw [v0Slots]
    have hbase : start + g.handSize * perCardLen g * pk0.1 +
        perCardLen g * pk0.2 = baseOf g start pk0 := rfl
    obtain ⟨b1, hb1, hfr1, hval1⟩ :=
      v0SlotStep_some g cc (baseOf g start pk0) b (hpos pk0 (by simp))
    rw [hbase, hb1]
    have hrestpos : ∀ pk ∈ rest,
        0 < slotTotal g cc b1 (baseOf g start pk) := by
      intro pk hm
      have hdis := baseOf_disjoint g start
        ((List.pairwise_cons.mp hpair).1 pk hm)
      rw [slotTotal_congr g cc b b1 (baseOf g start pk)
        (fun i hi => hfr1 (baseOf g start pk + i) (Or.inr (by omega)))]
      exact hpos pk (by simp [hm])
    obtain ⟨b2, hb2, hfr2, hval2⟩ :=
      ih (List.pairwise_cons.mp hpair).2 b1 hrestpos
    refine ⟨b2, hb2, ?_, ?_⟩
    · intro j hj
      rw [hfr2 j (fun pk hm => hj pk (by simp [hm])),
        hfr1 j (hj pk0 (by simp))]
    · intro pk hpk i hi
      rcases List.mem_cons.mp hpk with he | hm
      · subst he
        have hfr2v : b2 (baseOf g start pk + i) =
            b1 (baseOf g start pk + i) := by
          refine hfr2 (baseOf g start pk + i) ?_
          intro pkr hmr
          have hdis := baseOf_disjoint g start
            ((List.pairwise_cons.mp hpair).1 pkr hmr)
          left
          omega
        rw [hfr2v, hval1 i hi]
      · have hdis := baseOf_disjoint g start
          ((List.pairwise_cons.mp hpair).1 pk hm)
        rw [hval2 pk hm i hi,
          slotTotal_congr g cc b b1 (baseOf g start pk)
            (fun ix hix => hfr1 (baseOf g start pk + ix)
              (Or.inr (by omega))),
          hfr1 (baseOf g start pk + i) (Or.inr (by omega))]

/-- Knowledge entry of slot k of player p, when present. -/
def knowledgeAt (hands : List HanabiHand) (p k : Nat) :
    Option CardKnowledge :=
  (nthHand hands p).knowledge[k]?

/-- The raw card-knowledge bit of entry i of a slot. -/
def knowledgeBitQ (g : HanabiGame) (kno : Option CardKnowledge) (i : Nat) :
    ℚ :=
  match kno with
  | some kn => if slotSetBit g kn i then 1 else 0
  | none => 0

/-- Pre-normalization V0 total of a slot: knowledge bits weighted by the
remaining-unseen counts. -/
def slotPreTotal (g : HanabiGame) (cc : Nat → Int)
    (kno : Option CardKnowledge) : ℚ :=
  ∑ i ∈ Finset.range (bitsPerCard g), knowledgeBitQ g kno i * (cc i : ℚ)

/-- Value of the card-knowledge buffer at a slot position, for an input
buffer that is zero from the section start on. -/
theorem cardKnowledge_slot_val (g : HanabiGame) (obs : HanabiObservation)
    (start : Nat) (b : Enc) (hz : ∀ j, start ≤ j → b j = 0)
    (hnum : obs.hands.length = g.numPlayers)
    (hkl : ∀ h ∈ obs.hands, h.knowledge.length ≤ g.handSize)
    (hkwf : ∀ h ∈ obs.hands, knowledgeListWF g h.knowledge) :
    ∀ p < g.numPlayers, ∀ k < g.handSize, ∀ i < perCardLen g,
      (encodeCardKnowledge g obs start b).1 (baseOf g start (p, k) + i) =
        knowledgeBitQ g (knowledgeAt obs.hands p k) i := by
  intro p hp k hk i hi
  have hpos : baseOf g start (p, k) + i =
      start + p * playerStride g + k * perCardLen g + i := by
    rw [baseOf, playerStride]
    ring
  have hv := encodeKnowledgePlayers_val g obs.hands hkl hkwf start b p
    (by omega) k hk i hi
  rw [encodeCardKnowledge, hpos, hv]
  have hb0 : b (start + p * playerStride g + k * perCardLen g + i) = 0 :=
    hz _ (by omega)
  have hka : knowledgeAt obs.hands p k =
      (obs.hands.getD p default).knowledge[k]? := rfl
  rw [hka]
  cases hm : (obs.hands.getD p default).knowledge[k]? with
  | none => exact hb0
  | some kn =>
    show (if slotSetBit g kn i = true then 1 else
        b (start + p * playerStride g + k * perCardLen g + i)) =
      if slotSetBit g kn i = true then (1 : ℚ) else 0
    rcases Bool.eq_false_or_eq_true (slotSetBit g kn i) with hbb | hbb
    · rw [if_pos hbb, if_pos hbb]
    · rw [if_neg (by simp [hbb]), if_neg (by simp [hbb]), hb0]

/-- Frame of the card-knowledge buffer. -/
theorem cardKnowledge_frame (g : HanabiGame) (obs : HanabiObservation)
    (start : Nat) (b : Enc)
    (hkl : ∀ h ∈ obs.hands, h.knowledge.length ≤ g.handSize)
    (hkwf : ∀ h ∈ obs.hands, knowledgeListWF g h.knowledge) (j : Nat)
    (hj : j < start ∨ start + obs.hands.length * playerStride g ≤ j) :
    (encodeCardKnowledge g obs start b).1 j = b j :=
  encodeKnowledgePlayers_frame g obs.hands hkl hkwf start b j hj

/-- The section offsets used by EncodeV0Belief_ reduce to the player and
card strides. -/
theorem v0_offsets (g : HanabiGame) (hP : 0 < g.numPlayers)
    (hHS : 0 < g.handSize) :
    cardKnowledgeSectionLength g / g.numPlayers =
      g.handSize * perCardLen g ∧
    cardKnowledgeSectionLength g / g.handSize / g.numPlayers =
      perCardLen g := by
  constructor
  · have h1 : cardKnowledgeSectionLength g =
        g.numPlayers * (g.handSize * perCardLen g) := by
      rw [cardKnowledgeSectionLength, perCardLen]
      ring
    rw [h1, Nat.mul_div_cancel_left _ hP]
  · have h1 : cardKnowledgeSectionLength g =
        g.handSize * (g.numPlayers * perCardLen g) := by
      rw [cardKnowledgeSectionLength, perCardLen]
      ring
    rw [h1, Nat.mul_div_cancel_left _ hHS,
      Nat.mul_div_cancel_left _ hP]

/-- Slot totals of the knowledge buffer equal the pre-normalization
totals. -/
theorem slotTotal_eq_preTotal (g : HanabiGame) (obs : HanabiObservation)
    (start : Nat) (b : Enc) (hz : ∀ j, start ≤ j → b j = 0)
    (hnum : obs.hands.length = g.numPlayers)
    (hkl : ∀ h ∈ obs.hands, h.knowledge.length ≤ g.handSize)
    (hkwf : ∀ h ∈ obs.hands, knowledgeListWF g h.knowledge)
    (cc : Nat → Int) (p k : Nat) (hp : p < g.numPlayers)
    (hk : k < g.handSize) :
    slotTotal g cc (encodeCardKnowledge g obs start b).1
      (baseOf g start (p, k)) =
      slotPreTotal g cc (knowledgeAt obs.hands p k) := by
  rw [slotTotal, slotPreTotal]
  refine Finset.sum_congr rfl (fun i hi => ?_)
  have hiB := Finset.mem_range.mp hi
  rw [cardKnowledge_slot_val g obs start b hz hnum hkl hkwf p hp k hk i
    (by have := bitsPerCard_le_perCardLen g; omega)]

/-- Master characterization of EncodeV0Belief_ on a buffer that is zero
from the section start on: it aborts exactly when some occupied slot has
a non-positive pre-normalization total, and on success each occupied
slot holds its count-weighted knowledge bits divided by the slot total
while every other section entry keeps the raw knowledge bit. -/
theorem encodeV0_master (g : HanabiGame) (obs : HanabiObservation)
    (start : Nat) (b : Enc) (hz : ∀ j, start ≤ j → b j = 0)
    (hnum : obs.hands.length = g.numPlayers)
    (hcl : ∀ h ∈ obs.hands, h.cards.length ≤ g.handSize)
    (hkl : ∀ h ∈ obs.hands, h.knowledge.length ≤ g.handSize)
    (hkwf : ∀ h ∈ obs.hands, knowledgeListWF g h.knowledge)
    (hP : 0 < g.numPlayers) (hHS : 0 < g.handSize)
    (cc : Nat → Int) (hcc : computeCardCount g obs = some cc) :
    (encodeV0Belief_ g obs start b = none ↔
      ∃ p < g.numPlayers, ∃ k < (nthHand obs.hands p).cards.length,
        slotPreTotal g cc (knowledgeAt obs.hands p k) ≤ 0) ∧
    (∀ r, encodeV0Belief_ g obs start b = some r →
      r.2.2 = cc ∧
      (∀ p < g.numPlayers, ∀ k < (nthHand obs.hands p).cards.length,
        ∀ i < bitsPerCard g,
          r.1 (baseOf g start (p, k) + i) =
            knowledgeBitQ g (knowledgeAt obs.hands p k) i * (cc i : ℚ) /
              slotPreTotal g cc (knowledgeAt obs.hands p k)) ∧
      (∀ p < g.numPlayers, ∀ k < g.handSize, ∀ i < perCardLen g,
        ((nthHand obs.hands p).cards.length ≤ k ∨ bitsPerCard g ≤ i) →
          r.1 (baseOf g start (p, k) + i) =
            knowledgeBitQ g (knowledgeAt obs.hands p k) i)) := by
  have hsv := cardKnowledge_slot_val g obs start b hz hnum hkl hkwf
  have hcards : ∀ p, (nthHand obs.hands p).cards.length ≤ g.handSize := by
    intro p
    show (obs.hands.getD p default).cards.length ≤ g.handSize
    by_cases hp : p < obs.hands.length
    · rw [List.getD_eq_getElem obs.hands default hp]
      exact hcl obs.hands[p] (List.getElem_mem hp)
    · rw [List.getD_eq_default obs.hands default (by omega)]
      exact Nat.zero_le g.handSize
  have hpair := slotPairs_pairwise g obs.hands hcl
  have hTeq : ∀ pk ∈ slotPairs g obs.hands,
      slotTotal g cc (encodeCardKnowledge g obs start b).1
        (baseOf g start pk) =
      slotPreTotal g cc (knowledgeAt obs.hands pk.1 pk.2) := by
    intro pk hm
    obtain ⟨h1, h2⟩ := (slotPairs_mem g obs.hands pk).mp hm
    exact slotTotal_eq_preTotal g obs start b hz hnum hkl hkwf cc pk.1
      pk.2 h1 (by have := hcards pk.1; omega)
  have hunfold : encodeV0Belief_ g obs start b =
      match v0Slots g cc start (g.handSize * perCardLen g) (perCardLen g)
        (slotPairs g obs.hands) (encodeCardKnowledge g obs start b).1 with
      | none => none
      | some b2 => some (b2, cardKnowledgeSectionLength g, cc) := by
    have hlen2 : (encodeCardKnowledge g obs start b).2 - start =
        cardKnowledgeSectionLength g := by
      rw [encodeCardKnowledge_len g obs hnum hkl start b]
      omega
    simp only [encodeV0Belief_, hcc]
    rw [hlen2, (v0_offsets g hP hHS).1, (v0_offsets g hP hHS).2]
  constructor
  · constructor
    · intro hnone
      by_contra hno
      push_neg at hno
      have hpos : ∀ pk ∈ slotPairs g obs.hands,
          0 < slotTotal g cc (encodeCardKnowledge g obs start b).1
            (baseOf g start pk) := by
        intro pk hm
        obtain ⟨h1, h2⟩ := (slotPairs_mem g obs.hands pk).mp hm
        rw [hTeq pk hm]
        exact hno pk.1 h1 pk.2 h2
      obtain ⟨b2, hb2, _, _⟩ := v0Slots_some g cc start
        (slotPairs g obs.hands) hpair
        (encodeCardKnowledge g obs start b).1 hpos
      rw [hunfold, hb2] at hnone
      exact absurd hnone (by simp)
    · intro hex
      obtain ⟨p, hp, k, hk, hneg⟩ := hex
      have hm : (p, k) ∈ slotPairs g obs.hands :=
        (slotPairs_mem g obs.hands (p, k)).mpr ⟨hp, hk⟩
      rw [hunfold, v0Slots_none g cc start (slotPairs g obs.hands) hpair
        (encodeCardKnowledge g obs start b).1
        ⟨(p, k), hm, by rw [hTeq (p, k) hm]; exact hneg⟩]
  · intro r hr
    have hpos : ∀ pk ∈ slotPairs g obs.hands,
        0 < slotTotal g cc (encodeCardKnowledge g obs start b).1
          (baseOf g start pk) := by
      intro pk hm
      by_contra hle
      rw [hunfold, v0Slots_none g cc start (slotPairs g obs.hands) hpair
        (encodeCardKnowledge g obs start b).1
        ⟨pk, hm, by exact not_lt.mp hle⟩] at hr
      exact absurd hr (by simp)
    obtain ⟨b2, hb2, hfr2, hval2⟩ := v0Slots_some g cc start
      (slotPairs g obs.hands) hpair
      (encodeCardKnowledge g obs start b).1 hpos
    rw [hunfold, hb2, Option.some.injEq] at hr
    subst hr
    refine ⟨rfl, ?_, ?_⟩
    · intro p hp k hk i hi
      have hm : (p, k) ∈ slotPairs g obs.hands :=
        (slotPairs_mem g obs.hands (p, k)).mpr ⟨hp, hk⟩
      show b2 (baseOf g start (p, k) + i) = _
      rw [hval2 (p, k) hm i hi, hTeq (p, k) hm,
        hsv p hp k (by have := hcards p; omega) i
          (by have := bitsPerCard_le_perCardLen g; omega)]
    · intro p hp k hk i hi hout
      show b2 (baseOf g start (p, k) + i) = _
      have hnotin : ∀ pk ∈ slotPairs g obs.hands,
          baseOf g start (p, k) + i < baseOf g start pk ∨
          baseOf g start pk + bitsPerCard g ≤
            baseOf g start (p, k) + i := by
        intro pk hm
        obtain ⟨h1, h2⟩ := (slotPairs_mem g obs.hands pk).mp hm
        have hk2 : pk.2 < g.handSize := by
          have := hcards pk.1
          omega
        rcases Nat.lt_trichotomy (pk.1 * g.handSize + pk.2)
            (p * g.handSize + k) with ht | ht | ht
        · right
          have := baseOf_disjoint g start (a := pk) (b := (p, k)) ht
          omega
        · have heq := cardIndex_inj (R := g.handSize) hk hk2 ht
          have hpk : pk = (p, k) := by
            obtain ⟨e1, e2⟩ := heq
            obtain ⟨pk1, pk2⟩ := pk
            simp only at e1 e2
            rw [e1, e2]
          have h2x := h2
          rw [heq.1, heq.2] at h2x
          rw [hpk]
          rcases hout with hco | hio
          · exact absurd h2x (by omega)
          · right
            omega
        · left
          have := baseOf_disjoint_pcl g start (a := (p, k)) (b := pk) ht
          omega
      rw [hfr2 _ hnotin, hsv p hp k hk i hi]

/-- A two-player observation with empty hands of the standard game. -/
def obsTwoEmpty : HanabiObservation :=
  { hands := [{ cards := [], knowledge := [] },
              { cards := [], knowledge := [] }],
    discardPile := [], fireworks := fun _ => 0, deckSize := 0,
    informationTokens := 0, lifeTokens := 0, lastMoves := [] }

/-- C3 witness: the standard configuration with a well-formed empty
observation. -/
theorem section_write_counts_match_static_lengths_witness :
    (∀ start b, (encodeHands gStd obsTwoEmpty false start b).2 =
      start + handsSectionLength gStd) ∧
    (∀ start b, (encodeBoard gStd obsTwoEmpty start b).2 =
      start + boardSectionLength gStd) ∧
    (∀ start b, (encodeDiscards gStd obsTwoEmpty start b).2 =
      start + discardSectionLength gStd) ∧
    (∀ start b r, encodeLastAction_ gStd obsTwoEmpty start b = some r →
      r.2 = start + lastActionSectionLength gStd) ∧
    (∀ start b, (encodeCardKnowledge gStd obsTwoEmpty start b).2 =
      start + cardKnowledgeSectionLength gStd) ∧
    (∀ start b r, encodeV0Belief_ gStd obsTwoEmpty start b = some r →
      r.2.1 = cardKnowledgeSectionLength gStd) ∧
    (∀ r, encode gStd obsTwoEmpty false = some r →
      r.2 = flatLength (shape gStd)) :=
  section_write_counts_match_static_lengths gStd obsTwoEmpty false
    (by decide) (by decide) (by decide) (by decide)


theorem own_hand_trinary_summary_witness :
    ∃ b, encodeOwnHand gStd obsBelowCard = some b ∧
      (∀ k < (ownCards obsBelowCard).length, ∀ t < 3,
        b (3 * k + t) =
          if ownHandBit obsBelowCard.fireworks
            ((ownCards obsBelowCard).getD k default) t
          then 1 else 0) ∧
      (∀ k < (ownCards obsBelowCard).length,
        b (3 * k) + b (3 * k + 1) + b (3 * k + 2) = 1) ∧
      (∀ j, 3 * (ownCards obsBelowCard).length ≤ j → b j = 0) :=
  own_hand_trinary_summary gStd obsBelowCard (by decide)



/-- C1: for every observation whose card counts pass the sanity check,
EncodeV0Belief_ aborts whenever some occupied hand slot has a
non-positive pre-normalization total; on success each occupied slot
yields a colors×ranks vector summing to 1 that is exactly 0 at every
(color,rank) excluded by the slot's plausibility grid. -/
theorem v0_belief_slot_distribution (g : HanabiGame)
    (obs : HanabiObservation) (start : Nat) (b : Enc)
    (hz : ∀ j, start ≤ j → b j = 0)
    (hnum : obs.hands.length = g.numPlayers)
    (hcl : ∀ h ∈ obs.hands, h.cards.length ≤ g.handSize)
    (hkl : ∀ h ∈ obs.hands, h.knowledge.length ≤ g.handSize)
    (hkwf : ∀ h ∈ obs.hands, knowledgeListWF g h.knowledge)
    (hP : 0 < g.numPlayers) (hHS : 0 < g.handSize)
    (cc : Nat → Int) (hcc : computeCardCount g obs = some cc) :
    ((∃ p < g.numPlayers, ∃ k < (nthHand obs.hands p).cards.length,
        slotPreTotal g cc (knowledgeAt obs.hands p k) ≤ 0) →
      encodeV0Belief_ g obs start b = none) ∧
    (∀ r, encodeV0Belief_ g obs start b = some r →
      ∀ p < g.numPlayers, ∀ k < (nthHand obs.hands p).cards.length,
        (∑ i ∈ Finset.range (bitsPerCard g),
          r.1 (baseOf g start (p, k) + i)) = 1 ∧
        (∀ kn, knowledgeAt obs.hands p k = some kn →
          ∀ c < g.numColors, ∀ rk < g.numRanks,
            (kn.colorPlausible c = false ∨ kn.rankPlausible rk = false) →
              r.1 (baseOf g start (p, k) + cardIndex c rk g.numRanks) =
                0)) := by
  obtain ⟨hiff, hsome⟩ :=
    encodeV0_master g obs start b hz hnum hcl hkl hkwf hP hHS cc hcc
  refine ⟨fun hex => hiff.mpr hex, ?_⟩
  intro r hr p hp k hk
  obtain ⟨-, hval, -⟩ := hsome r hr
  have hpos : 0 < slotPreTotal g cc (knowledgeAt obs.hands p k) := by
    by_contra hle
    rw [hiff.mpr ⟨p, hp, k, hk, not_lt.mp hle⟩] at hr
    exact absurd hr (by simp)
  constructor
  · have h1 : ∀ i ∈ Finset.range (bitsPerCard g),
        r.1 (baseOf g start (p, k) + i) =
          knowledgeBitQ g (knowledgeAt obs.hands p k) i * (cc i : ℚ) /
            slotPreTotal g cc (knowledgeAt obs.hands p k) := fun i hi =>
      hval p hp k hk i (Finset.mem_range.mp hi)
    have h2 : (∑ i ∈ Finset.range (bitsPerCard g),
        knowledgeBitQ g (knowledgeAt obs.hands p k) i * (cc i : ℚ)) =
      slotPreTotal g cc (knowledgeAt obs.hands p k) := rfl
    rw [Finset.sum_congr rfl h1, ← Finset.sum_div, h2,
      div_self (ne_of_gt hpos)]
  · intro kn hkn c hc rk hrk hexcl
    have hidx : cardIndex c rk g.numRanks < bitsPerCard g := by
      rw [bitsPerCard]
      exact cardIndex_lt hc hrk
    rw [hval p hp k hk _ hidx]
    have hdiv : cardIndex c rk g.numRanks / g.numRanks = c := by
      rw [cardIndex, Nat.mul_comm, Nat.mul_add_div (by omega),
        Nat.div_eq_of_lt hrk]
      omega
    have hmod : cardIndex c rk g.numRanks % g.numRanks = rk := by
      rw [cardIndex, Nat.mul_comm, Nat.mul_add_mod, Nat.mod_eq_of_lt hrk]
    have hset : slotSetBit g kn (cardIndex c rk g.numRanks) = false := by
      rw [slotSetBit, if_pos hidx, hdiv, hmod]
      rcases hexcl with he | he
      · simp [he]
      · simp [he]
    have hbit : knowledgeBitQ g (knowledgeAt obs.hands p k)
        (cardIndex c rk g.numRanks) = 0 := by
      rw [hkn]
      show (if slotSetBit g kn (cardIndex c rk g.numRanks) = true
        then (1 : ℚ) else 0) = 0
      rw [if_neg (by simp [hset])]
    rw [hbit, zero_mul, zero_div]

/-- Fully plausible, unhinted knowledge of one slot. -/
def knTiny : CardKnowledge :=
  { colorPlausible := fun _ => true, rankPlausible := fun _ => true,
    colorHinted := false, hintColor := 0, rankHinted := false,
    hintRank := 0 }

/-- The single occupied hand of the tiny game. -/
def handTiny : HanabiHand :=
  { cards := [{ color := 0, rank := 0, valid := true }],
    knowledge := [knTiny] }

/-- An observation of the tiny game: the single card is in the hand with
fully plausible knowledge; the deck is empty. -/
def obsTinyFull : HanabiObservation :=
  { hands := [handTiny],
    discardPile := [], fireworks := fun _ => 0, deckSize := 0,
    informationTokens := 1, lifeTokens := 1, lastMoves := [] }

theorem v0_belief_slot_distribution_witness :
    computeCardCount gTiny obsTinyFull = some (initialCardCount gTiny) ∧
    ∃ r, encodeV0Belief_ gTiny obsTinyFull 0 zeroEnc = some r ∧
      (∑ i ∈ Finset.range (bitsPerCard gTiny),
        r.1 (baseOf gTiny 0 (0, 0) + i)) = 1 := by
  have hkwf : ∀ h ∈ obsTinyFull.hands, knowledgeListWF gTiny h.knowledge := by
    intro h hm
    have hm2 : h ∈ [handTiny] := hm
    rw [List.mem_singleton] at hm2
    subst hm2
    intro kn hkn
    have hkn2 : kn ∈ [knTiny] := hkn
    rw [List.mem_singleton] at hkn2
    subst hkn2
    exact ⟨fun _ => by decide, fun _ => by decide⟩
  have hcl : ∀ h ∈ obsTinyFull.hands, h.cards.length ≤ gTiny.handSize := by
    intro h hm
    have hm2 : h ∈ [handTiny] := hm
    rw [List.mem_singleton] at hm2
    subst hm2
    decide
  have hkl : ∀ h ∈ obsTinyFull.hands,
      h.knowledge.length ≤ gTiny.handSize := by
    intro h hm
    have hm2 : h ∈ [handTiny] := hm
    rw [List.mem_singleton] at hm2
    subst hm2
    decide
  refine ⟨rfl, ?_⟩
  obtain ⟨habort, hval⟩ := v0_belief_slot_distribution gTiny obsTinyFull 0
    zeroEnc (fun j _ => rfl) rfl hcl hkl hkwf (by decide) (by decide)
    (initialCardCount gTiny) rfl
  have hpre : slotPreTotal gTiny (initialCardCount gTiny)
      (knowledgeAt obsTinyFull.hands 0 0) = 1 := by
    rw [slotPreTotal, show bitsPerCard gTiny = 1 from rfl,
      Finset.sum_range_one,
      show knowledgeBitQ gTiny (knowledgeAt obsTinyFull.hands 0 0) 0 = 1
        from rfl,
      show initialCardCount gTiny 0 = 1 from rfl]
    norm_num
  cases hv : encodeV0Belief_ gTiny obsTinyFull 0 zeroEnc with
  | none =>
    obtain ⟨p, hp, k, hk, hle⟩ := (encodeV0_master gTiny obsTinyFull 0
      zeroEnc (fun j _ => rfl) rfl hcl hkl hkwf (by decide) (by decide)
      (initialCardCount gTiny) rfl).1.mp hv
    have hp0 : p = 0 := by
      have h1 : gTiny.numPlayers = 1 := rfl
      omega
    subst hp0
    have hk0 : k = 0 := by
      have h1 : (nthHand obsTinyFull.hands 0).cards.length = 1 := rfl
      omega
    subst hk0
    rw [hpre] at hle
    norm_num at hle
  | some r =>
    exact ⟨r, rfl, (hval r hv 0 (by decide) 0 (by decide)).1⟩

/-- Decomposition of a position inside the knowledge region into its
player, slot and entry indices. -/
theorem knowledge_region_decompose (g : HanabiGame) (L j : Nat)
    (hj : j < L * playerStride g) :
    ∃ p < L, ∃ k < g.handSize, ∃ i < perCardLen g,
      j = p * playerStride g + k * perCardLen g + i := by
  have hPS : 0 < playerStride g := by
    rcases Nat.eq_zero_or_pos (playerStride g) with h0 | h0
    · rw [h0, Nat.mul_zero] at hj
      exact absurd hj (by omega)
    · exact h0
  have hPCL : 0 < perCardLen g := by
    have hps : playerStride g = g.handSize * perCardLen g := rfl
    rcases Nat.eq_zero_or_pos (perCardLen g) with h0 | h0
    · rw [h0, Nat.mul_zero] at hps
      omega
    · exact h0
  refine ⟨j / playerStride g, ?_, j % playerStride g / perCardLen g, ?_,
    j % playerStride g % perCardLen g, ?_, ?_⟩
  · exact (Nat.div_lt_iff_lt_mul hPS).mpr hj
  · have h1 : j % playerStride g < playerStride g := Nat.mod_lt _ hPS
    have h2 : playerStride g = g.handSize * perCardLen g := rfl
    exact (Nat.div_lt_iff_lt_mul hPCL).mpr (by omega)
  · exact Nat.mod_lt _ hPCL
  · have h1 : j % playerStride g / perCardLen g * perCardLen g +
        j % playerStride g % perCardLen g = j % playerStride g :=
      Nat.div_add_mod' _ _
    have h2 : j / playerStride g * playerStride g + j % playerStride g =
        j := Nat.div_add_mod' _ _
    omega

/-- Writing the card knowledge over its own output changes nothing. -/
theorem encodeCardKnowledge_idem (g : HanabiGame) (obs : HanabiObservation)
    (hkl : ∀ h ∈ obs.hands, h.knowledge.length ≤ g.handSize)
    (hkwf : ∀ h ∈ obs.hands, knowledgeListWF g h.knowledge) :
    encodeCardKnowledge g obs 0 (encodeCardKnowledge g obs 0 zeroEnc).1 =
      encodeCardKnowledge g obs 0 zeroEnc := by
  refine Prod.ext_iff.mpr ⟨?_, ?_⟩
  · funext j
    by_cases hreg : j < obs.hands.length * playerStride g
    · obtain ⟨p, hp, k, hk, i, hi, hj⟩ :=
        knowledge_region_decompose g obs.hands.length j hreg
      subst hj
      have hv1 := encodeKnowledgePlayers_val g obs.hands hkl hkwf 0
        (encodeCardKnowledge g obs 0 zeroEnc).1 p hp k hk i hi
      have hv0 := encodeKnowledgePlayers_val g obs.hands hkl hkwf 0
        zeroEnc p hp k hk i hi
      rw [Nat.zero_add] at hv1 hv0
      show (encodeKnowledgePlayers g obs.hands 0
          (encodeCardKnowledge g obs 0 zeroEnc).1).1
            (p * playerStride g + k * perCardLen g + i) =
        (encodeCardKnowledge g obs 0 zeroEnc).1
          (p * playerStride g + k * perCardLen g + i)
      rw [hv1]
      cases hm : (obs.hands.getD p default).knowledge[k]? with
      | none => rfl
      | some kn =>
        show (if slotSetBit g kn i = true then 1
            else (encodeCardKnowledge g obs 0 zeroEnc).1
              (p * playerStride g + k * perCardLen g + i)) =
          (encodeCardKnowledge g obs 0 zeroEnc).1
            (p * playerStride g + k * perCardLen g + i)
        rcases Bool.eq_false_or_eq_true (slotSetBit g kn i) with hbb | hbb
        · rw [if_pos hbb]
          have hck : (encodeCardKnowledge g obs 0 zeroEnc).1
              (p * playerStride g + k * perCardLen g + i) = 1 := by
            show (encodeKnowledgePlayers g obs.hands 0 zeroEnc).1
                (p * playerStride g + k * perCardLen g + i) = 1
            rw [hv0]
            simp only [hm]
            rw [if_pos hbb]
          rw [hck]
        · rw [if_neg (by simp [hbb])]
    · exact encodeKnowledgePlayers_frame g obs.hands hkl hkwf 0
        (encodeCardKnowledge g obs 0 zeroEnc).1 j (by omega)
  · rw [encodeCardKnowledge, encodeCardKnowledge,
      encodeKnowledgePlayers_len g obs.hands hkl,
      encodeKnowledgePlayers_len g obs.hands hkl]

/-- EncodeV0Belief_ reads its buffer only through EncodeCardKnowledge, so
starting from the knowledge buffer equals starting from zero. -/
theorem encodeV0Belief_ck (g : HanabiGame) (obs : HanabiObservation)
    (hkl : ∀ h ∈ obs.hands, h.knowledge.length ≤ g.handSize)
    (hkwf : ∀ h ∈ obs.hands, knowledgeListWF g h.knowledge) :
    encodeV0Belief_ g obs 0 (encodeCardKnowledge g obs 0 zeroEnc).1 =
      encodeV0Belief_ g obs 0 zeroEnc := by
  simp only [encodeV0Belief_, encodeCardKnowledge_idem g obs hkl hkwf]

/-- With damping weight 0 the blended slot is unchanged whenever its
entries sum to 1. -/
theorem v1BlendSlot_zero (g : HanabiGame) (newv : Enc) (base : Nat)
    (v1 : Enc)
    (h1 : (∑ i ∈ Finset.range (bitsPerCard g), v1 (base + i)) = 1) :
    v1BlendSlot g 0 newv base v1 = some v1 := by
  have hmix : ∀ j, v1BlendMix g 0 newv base v1 j = v1 j := by
    intro j
    rw [v1BlendMix]
    split_ifs with h
    · ring
    · rfl
  have hsum : (∑ i ∈ Finset.range (bitsPerCard g),
      v1BlendMix g 0 newv base v1 (base + i)) = 1 := by
    rw [Finset.sum_congr rfl (fun i _ => hmix (base + i))]
    exact h1
  rw [v1BlendSlot, hsum, if_neg (by norm_num)]
  congr 1
  funext j
  split_ifs with h
  · rw [hmix j, div_one]
  · rfl

/-- With weight 0 the blend loop returns its buffer unchanged when every
listed slot sums to 1. -/
theorem v1BlendAll_zero (g : HanabiGame) (newv : Enc) (pOff cOff : Nat) :
    ∀ (l : List (Nat × Nat)) (v1 : Enc),
      (∀ pk ∈ l, (∑ i ∈ Finset.range (bitsPerCard g),
        v1 (pOff * pk.1 + cOff * pk.2 + i)) = 1) →
      v1BlendAll g 0 newv pOff cOff l v1 = some v1 := by
  intro l
  induction l with
  | nil => intro v1 _; rfl
  | cons pk rest ih =>
    intro v1 hsums
    simp only [v1BlendAll,
      v1BlendSlot_zero g newv (pOff * pk.1 + cOff * pk.2) v1
        (hsums pk (List.mem_cons_self pk rest))]
    exact ih v1 (fun q hq => hsums q (List.mem_cons_of_mem pk hq))

/-- A V1 refinement step with weight 0 leaves the belief unchanged. -/
theorem v1Step_zero (g : HanabiGame) (hands : List HanabiHand)
    (cc : Nat → Int) (ck : Enc) (pOff cOff : Nat) (v1 : Enc)
    (hsums : ∀ pk ∈ slotPairs g hands,
      (∑ i ∈ Finset.range (bitsPerCard g),
        v1 (pOff * pk.1 + cOff * pk.2 + i)) = 1) :
    v1Step g hands cc ck 0 pOff cOff v1 = some v1 := by
  show v1BlendAll g 0
      (v1NewAll g ck (v1TotalCards g hands cc pOff cOff v1) pOff cOff v1
        (slotPairs g hands) v1) pOff cOff (slotPairs g hands) v1 = some v1
  exact v1BlendAll_zero g _ pOff cOff (slotPairs g hands) v1 hsums

/-- Iterating with weight 0 leaves the belief unchanged. -/
theorem v1Iterate_zero (g : HanabiGame) (hands : List HanabiHand)
    (cc : Nat → Int) (ck : Enc) (pOff cOff : Nat) (v1 : Enc)
    (hsums : ∀ pk ∈ slotPairs g hands,
      (∑ i ∈ Finset.range (bitsPerCard g),
        v1 (pOff * pk.1 + cOff * pk.2 + i)) = 1) :
    ∀ n, v1Iterate g hands cc ck 0 pOff cOff n v1 = some v1 := by
  intro n
  induction n with
  | zero => rfl
  | succ m ih =>
    simp only [v1Iterate,
      v1Step_zero g hands cc ck pOff cOff v1 hsums]
    exact ih

/-- C4: EncodeV1Belief_ run with damping weight 0 or with 0 refinement
iterations returns exactly the V0 belief section copied into the output
buffer. -/
theorem v1_zero_weight_or_iters_eq_v0 (g : HanabiGame)
    (obs : HanabiObservation) (start : Nat) (b : Enc)
    (hnum : obs.hands.length = g.numPlayers)
    (hcl : ∀ h ∈ obs.hands, h.cards.length ≤ g.handSize)
    (hkl : ∀ h ∈ obs.hands, h.knowledge.length ≤ g.handSize)
    (hkwf : ∀ h ∈ obs.hands, knowledgeListWF g h.knowledge)
    (hP : 0 < g.numPlayers) (hHS : 0 < g.handSize)
    (iters : Nat) (w : ℚ) (h0 : w = 0 ∨ iters = 0) :
    encodeV1BeliefGen iters w g obs start b =
      match encodeV0Belief_ g obs 0 zeroEnc with
      | none => none
      | some r => some ((fun j => if start ≤ j ∧ j < start + r.2.1
          then r.1 (j - start) else b j), r.2.1) := by
  have hck := encodeV0Belief_ck g obs hkl hkwf
  cases hv : encodeV0Belief_ g obs 0 zeroEnc with
  | none => simp only [encodeV1BeliefGen, hck, hv]
  | some r =>
    have hlen : r.2.1 = cardKnowledgeSectionLength g :=
      encodeV0Belief_len g obs hnum hkl 0 zeroEnc r hv
    have hOff1 : r.2.1 / g.numPlayers = g.handSize * perCardLen g := by
      rw [hlen]
      exact (v0_offsets g hP hHS).1
    have hOff2 : r.2.1 / g.handSize / g.numPlayers = perCardLen g := by
      rw [hlen]
      exact (v0_offsets g hP hHS).2
    cases hcc : computeCardCount g obs with
    | none => simp [encodeV0Belief_, hcc] at hv
    | some cc =>
      obtain ⟨hiff, hsome⟩ := encodeV0_master g obs 0 zeroEnc
        (fun j _ => rfl) hnum hcl hkl hkwf hP hHS cc hcc
      obtain ⟨hcceq, hval, hother⟩ := hsome r hv
      have hpos : ∀ p < g.numPlayers,
          ∀ k < (nthHand obs.hands p).cards.length,
          0 < slotPreTotal g cc (knowledgeAt obs.hands p k) := by
        intro p hp k hk
        by_contra hle
        rw [hiff.mpr ⟨p, hp, k, hk, not_lt.mp hle⟩] at hv
        exact absurd hv (by simp)
      have hsums : ∀ pk ∈ slotPairs g obs.hands,
          (∑ i ∈ Finset.range (bitsPerCard g),
            r.1 (g.handSize * perCardLen g * pk.1 +
              perCardLen g * pk.2 + i)) = 1 := by
        intro pk hm
        obtain ⟨h1, h2⟩ := (slotPairs_mem g obs.hands pk).mp hm
        have hbase : ∀ i : Nat, g.handSize * perCardLen g * pk.1 +
            perCardLen g * pk.2 + i = baseOf g 0 (pk.1, pk.2) + i := by
          intro i
          simp only [baseOf]
          ring
        rw [Finset.sum_congr rfl (fun i hi => by
          rw [hbase i, hval pk.1 h1 pk.2 h2 i (Finset.mem_range.mp hi)])]
        rw [← Finset.sum_div]
        have h2eq : (∑ i ∈ Finset.range (bitsPerCard g),
            knowledgeBitQ g (knowledgeAt obs.hands pk.1 pk.2) i *
              (cc i : ℚ)) =
          slotPreTotal g cc (knowledgeAt obs.hands pk.1 pk.2) := rfl
        rw [h2eq, div_self (ne_of_gt (hpos pk.1 h1 pk.2 h2))]
      have hiter : v1Iterate g obs.hands r.2.2
          (encodeCardKnowledge g obs 0 zeroEnc).1 w
          (r.2.1 / g.numPlayers) (r.2.1 / g.handSize / g.numPlayers) iters
          r.1 = some r.1 := by
        rcases h0 with h0 | h0
        · subst h0
          rw [hOff1, hOff2]
          exact v1Iterate_zero g obs.hands r.2.2
            (encodeCardKnowledge g obs 0 zeroEnc).1
            (g.handSize * perCardLen g) (perCardLen g) r.1 hsums iters
        · subst h0
          rfl
      simp only [encodeV1BeliefGen, hck, hv, hiter]

theorem v1_zero_weight_or_iters_eq_v0_witness :
    ((0 : ℚ) = 0 ∨ (5 : Nat) = 0) ∧
    encodeV1BeliefGen 5 0 gTiny obsTinyFull 0 zeroEnc =
      (match encodeV0Belief_ gTiny obsTinyFull 0 zeroEnc with
       | none => none
       | some r => some ((fun j => if 0 ≤ j ∧ j < 0 + r.2.1
           then r.1 (j - 0) else zeroEnc j), r.2.1)) := by
  have hkwf : ∀ h ∈ obsTinyFull.hands,
      knowledgeListWF gTiny h.knowledge := by
    intro h hm
    have hm2 : h ∈ [handTiny] := hm
    rw [List.mem_singleton] at hm2
    subst hm2
    intro kn hkn
    have hkn2 : kn ∈ [knTiny] := hkn
    rw [List.mem_singleton] at hkn2
    subst hkn2
    exact ⟨fun _ => by decide, fun _ => by decide⟩
  have hcl : ∀ h ∈ obsTinyFull.hands,
      h.cards.length ≤ gTiny.handSize := by
    intro h hm
    have hm2 : h ∈ [handTiny] := hm
    rw [List.mem_singleton] at hm2
    subst hm2
    decide
  have hkl : ∀ h ∈ obsTinyFull.hands,
      h.knowledge.length ≤ gTiny.handSize := by
    intro h hm
    have hm2 : h ∈ [handTiny] := hm
    rw [List.mem_singleton] at hm2
    subst hm2
    decide
  exact ⟨Or.inl rfl,
    v1_zero_weight_or_iters_eq_v0 gTiny obsTinyFull 0 zeroEnc rfl hcl hkl
      hkwf (by decide) (by decide) 5 0 (Or.inl rfl)⟩

/-- A point write leaves every other position alone. -/
theorem upd_out (b : Enc) (i : Nat) (v : ℚ) (j : Nat) (h : j ≠ i) :
    upd b i v j = b j := by
  show (if j = i then v else b j) = b j
  rw [if_neg h]

/-- A thermometer write leaves positions at or beyond its range alone. -/
theorem setFirstN_out (b : Enc) (off n j : Nat) (h : off + n ≤ j) :
    setFirstN b off n j = b j := by
  show (if off ≤ j ∧ j < off + n then (1 : ℚ) else b j) = b j
  rw [if_neg]
  rintro ⟨h1, h2⟩
  omega

/-- The hand card loop writes nothing at or beyond its end cursor. -/
theorem encodeHandLoop_uframe (g : HanabiGame) (showOwn : Bool)
    (player : Nat) :
    ∀ (cards : List HanabiCard),
      (∀ card ∈ cards, card.color < g.numColors ∧
        card.rank < g.numRanks) →
    ∀ (off : Nat) (b : Enc) (j : Nat),
      off + cards.length * bitsPerCard g ≤ j →
      (encodeHandLoop g showOwn player cards off b).1 j = b j := by
  intro cards
  induction cards with
  | nil => intro _ off b j _; rfl
  | cons card rest ih =>
    intro hv off b j hj
    simp only [List.length_cons] at hj
    have hmul : (rest.length + 1) * bitsPerCard g =
        rest.length * bitsPerCard g + bitsPerCard g := by ring
    have hci : cardIndex card.color card.rank g.numRanks <
        bitsPerCard g := by
      have h1 := hv card (List.mem_cons_self card rest)
      exact cardIndex_lt h1.1 h1.2
    rw [encodeHandLoop]
    rw [ih (fun c hc => hv c (List.mem_cons_of_mem card hc))]
    · split_ifs
      · exact upd_out b
          (off + cardIndex card.color card.rank g.numRanks) 1 j (by omega)
      · rfl
      · exact upd_out b
          (off + cardIndex card.color card.rank g.numRanks) 1 j (by omega)
    · omega

/-- The hands player loop writes nothing at or beyond its end cursor. -/
theorem encodeHandsPlayers_uframe (g : HanabiGame) (showOwn : Bool) :
    ∀ (hands : List HanabiHand),
      (∀ h ∈ hands, h.cards.length ≤ g.handSize) →
      (∀ h ∈ hands, ∀ card ∈ h.cards,
        card.color < g.numColors ∧ card.rank < g.numRanks) →
    ∀ (player off : Nat) (b : Enc) (j : Nat),
      off + hands.length * (g.handSize * bitsPerCard g) ≤ j →
      (encodeHandsPlayers g showOwn player hands off b).1 j = b j := by
  intro hands
  induction hands with
  | nil => intro _ _ player off b j _; rfl
  | cons h rest ih =>
    intro hlen hv player off b j hj
    simp only [List.length_cons] at hj
    have hmul : (rest.length + 1) * (g.handSize * bitsPerCard g) =
        rest.length * (g.handSize * bitsPerCard g) +
          g.handSize * bitsPerCard g := by ring
    have hr2 := encodeHandLoop_len g showOwn player h.cards off b
    have hcb : h.cards.length * bitsPerCard g ≤
        g.handSize * bitsPerCard g :=
      Nat.mul_le_mul_right _ (hlen h (List.mem_cons_self h rest))
    rw [encodeHandsPlayers]
    rw [ih (fun x hx => hlen x (List.mem_cons_of_mem h hx))
      (fun x hx => hv x (List.mem_cons_of_mem h hx))]
    · exact encodeHandLoop_uframe g showOwn player h.cards
        (hv h (List.mem_cons_self h rest)) off b j (by omega)
    · split_ifs with hc
      · rw [hr2]
        have h2 : (g.handSize - h.cards.length) * bitsPerCard g =
            g.handSize * bitsPerCard g - h.cards.length * bitsPerCard g :=
          Nat.sub_mul _ _ _
        omega
      · have h3 : h.cards.length = g.handSize :=
          Nat.le_antisymm (hlen h (List.mem_cons_self h rest))
            (Nat.not_lt.mp hc)
        rw [h3] at hr2
        rw [hr2]
        omega

/-- The missing-card bits stay below the cursor plus the player count. -/
theorem encodeMissingBits_uframe (g : HanabiGame) :
    ∀ (hands : List HanabiHand) (player off : Nat) (b : Enc) (j : Nat),
      off + player + hands.length ≤ j →
      encodeMissingBits g player hands off b j = b j := by
  intro hands
  induction hands with
  | nil => intro player off b j _; rfl
  | cons h rest ih =>
    intro player off b j hj
    simp only [List.length_cons] at hj
    rw [encodeMissingBits]
    rw [ih (player + 1) off _ j (by omega)]
    split_ifs
    · exact upd_out b (off + player) 1 j (by omega)
    · rfl

/-- EncodeHands writes nothing at or beyond its section end. -/
theorem encodeHands_uframe (g : HanabiGame) (obs : HanabiObservation)
    (showOwn : Bool) (hnum : obs.hands.length = g.numPlayers)
    (hlen : ∀ h ∈ obs.hands, h.cards.length ≤ g.handSize)
    (hv : ∀ h ∈ obs.hands, ∀ card ∈ h.cards,
      card.color < g.numColors ∧ card.rank < g.numRanks)
    (start : Nat) (b : Enc) (j : Nat)
    (hj : start + handsSectionLength g ≤ j) :
    (encodeHands g obs showOwn start b).1 j = b j := by
  rw [handsSectionLength] at hj
  have hassoc : g.numPlayers * g.handSize * bitsPerCard g =
      g.numPlayers * (g.handSize * bitsPerCard g) := by ring
  have hr2 := encodeHandsPlayers_len g showOwn obs.hands hlen 0 start b
  rw [encodeHands]
  simp only
  rw [encodeMissingBits_uframe g obs.hands 0
    (encodeHandsPlayers g showOwn 0 obs.hands start b).2
    (encodeHandsPlayers g showOwn 0 obs.hands start b).1 j
    (by rw [hr2, hnum]; omega)]
  exact encodeHandsPlayers_uframe g showOwn obs.hands hlen hv 0 start b j
    (by rw [hnum]; omega)

/-- The fireworks loop writes nothing at or beyond its end cursor. -/
theorem encodeFireworksLoop_uframe (numRanks : Nat) (fw : Nat → Nat)
    (hfw : ∀ c, fw c ≤ numRanks) :
    ∀ (cs : List Nat) (off : Nat) (b : Enc) (j : Nat),
      off + cs.length * numRanks ≤ j →
      (encodeFireworksLoop numRanks fw cs off b).1 j = b j := by
  intro cs
  induction cs with
  | nil => intro off b j _; rfl
  | cons c rest ih =>
    intro off b j hj
    simp only [List.length_cons] at hj
    have hmul : (rest.length + 1) * numRanks =
        rest.length * numRanks + numRanks := by ring
    rw [encodeFireworksLoop]
    rw [ih (off + numRanks) _ j (by omega)]
    split_ifs with hc
    · exact upd_out b (off + (fw c - 1)) 1 j (by have := hfw c; omega)
    · rfl

/-- EncodeBoard writes nothing at or beyond its section end. -/
theorem encodeBoard_uframe (g : HanabiGame) (obs : HanabiObservation)
    (hdk : obs.deckSize ≤ g.maxDeckSize - g.handSize * g.numPlayers)
    (hfw : ∀ c, obs.fireworks c ≤ g.numRanks)
    (hinfo : obs.informationTokens ≤ g.maxInformationTokens)
    (hlife : obs.lifeTokens ≤ g.maxLifeTokens)
    (start : Nat) (b : Enc) (j : Nat)
    (hj : start + boardSectionLength g ≤ j) :
    (encodeBoard g obs start b).1 j = b j := by
  rw [boardSectionLength] at hj
  have hcomm : g.handSize * g.numPlayers = g.numPlayers * g.handSize := by
    ring
  have hfl : (encodeFireworksLoop g.numRanks obs.fireworks
      (List.range g.numColors)
      (start + (g.maxDeckSize - g.handSize * g.numPlayers))
      (setFirstN b start obs.deckSize)).2 =
      start + (g.maxDeckSize - g.handSize * g.numPlayers) +
        g.numColors * g.numRanks := by
    rw [encodeFireworksLoop_len, List.length_range]
  rw [encodeBoard]
  simp only
  rw [setFirstN_out, setFirstN_out,
    encodeFireworksLoop_uframe g.numRanks obs.fireworks hfw,
    setFirstN_out]
  · omega
  · rw [List.length_range]; omega
  · rw [hfl]; omega
  · rw [hfl]; omega

/-- The per-color discard rank loop writes nothing beyond its fields. -/
theorem encodeDiscardsRanks_uframe (g : HanabiGame) (counts : Nat → Nat)
    (c : Nat) :
    ∀ (rs : List Nat),
      (∀ r ∈ rs, counts (cardIndex c r g.numRanks) ≤
        g.numberCardInstances c r) →
    ∀ (off : Nat) (b : Enc) (j : Nat),
      off + (rs.map (fun r => g.numberCardInstances c r)).sum ≤ j →
      (encodeDiscardsRanks g counts c rs off b).1 j = b j := by
  intro rs
  induction rs with
  | nil => intro _ off b j _; rfl
  | cons r rest ih =>
    intro hc off b j hj
    simp only [List.map_cons, List.sum_cons] at hj
    rw [encodeDiscardsRanks]
    rw [ih (fun x hx => hc x (List.mem_cons_of_mem r hx))]
    · exact setFirstN_out b off _ j
        (by have := hc r (List.mem_cons_self r rest); omega)
    · omega

/-- The discard color loop writes nothing at or beyond its end cursor. -/
theorem encodeDiscardsColors_uframe (g : HanabiGame) (counts : Nat → Nat) :
    ∀ (cs : List Nat),
      (∀ c ∈ cs, ∀ r ∈ List.range g.numRanks,
        counts (cardIndex c r g.numRanks) ≤ g.numberCardInstances c r) →
    ∀ (off : Nat) (b : Enc) (j : Nat),
      off + (cs.map (rowInstSum g)).sum ≤ j →
      (encodeDiscardsColors g counts cs off b).1 j = b j := by
  intro cs
  induction cs with
  | nil => intro _ off b j _; rfl
  | cons c rest ih =>
    intro hc off b j hj
    simp only [List.map_cons, List.sum_cons] at hj
    have hr1 := encodeDiscardsRanks_len g counts c (List.range g.numRanks)
      off b
    rw [encodeDiscardsColors]
    rw [ih (fun x hx r hr => hc x (List.mem_cons_of_mem c hx) r hr)]
    · exact encodeDiscardsRanks_uframe g counts c (List.range g.numRanks)
        (hc c (List.mem_cons_self c rest)) off b j
        (by rw [rowInstSum] at hj; omega)
    · rw [hr1, rowInstSum] at *
      omega

/-- EncodeDiscards writes nothing at or beyond its section end. -/
theorem encodeDiscards_uframe (g : HanabiGame) (obs : HanabiObservation)
    (hdeck : g.maxDeckSize =
      ((List.range g.numColors).map (rowInstSum g)).sum)
    (hdc : ∀ c < g.numColors, ∀ r < g.numRanks,
      discardCount g.numRanks obs.discardPile (cardIndex c r g.numRanks) ≤
        g.numberCardInstances c r)
    (start : Nat) (b : Enc) (j : Nat)
    (hj : start + discardSectionLength g ≤ j) :
    (encodeDiscards g obs start b).1 j = b j := by
  rw [discardSectionLength, hdeck] at hj
  rw [encodeDiscards]
  exact encodeDiscardsColors_uframe g _ (List.range g.numColors)
    (fun c hc r hr => hdc c (List.mem_range.mp hc) r (List.mem_range.mp hr))
    start b j hj

/-- Well-formedness of a history item: all encoded fields in range and an
encodable move type. -/
def itemWF (g : HanabiGame) (item : HanabiHistoryItem) : Prop :=
  item.player < g.numPlayers ∧ item.move.color < g.numColors ∧
  item.move.rank < g.numRanks ∧ item.move.cardIdx < g.handSize ∧
  cardIndex item.color item.rank g.numRanks < bitsPerCard g ∧
  moveTypeIndex item.move.moveType ≠ none

/-- The last-action item encoder writes nothing at or beyond its end
cursor. -/
theorem encodeLastActionItem_uframe (g : HanabiGame)
    (item : HanabiHistoryItem) (hP : 0 < g.numPlayers)
    (hwf : itemWF g item) (start : Nat) (b : Enc) :
    ∀ r, encodeLastActionItem g item start b = some r →
      ∀ j, r.2 ≤ j → r.1 j = b j := by
  obtain ⟨hplayer, hcolor, hrank, hcidx, hcr, hmt⟩ := hwf
  intro r hr j hj
  obtain ⟨r1, r2⟩ := r
  cases htm : item.move.moveType with
  | invalid =>
    rw [htm] at hmt
    exact absurd rfl hmt
  | deal =>
    rw [htm] at hmt
    exact absurd rfl hmt
  | play =>
    simp [encodeLastActionItem, htm, moveTypeIndex, isHintMove,
      isPlayDiscard] at hr
    obtain ⟨hb, hoff⟩ := hr
    subst hb
    subst hoff
    simp only [apply_ite (fun f : Enc => f j), upd]
    split_ifs <;> first | rfl | (exfalso; omega)
  | discard =>
    simp [encodeLastActionItem, htm, moveTypeIndex, isHintMove,
      isPlayDiscard] at hr
    obtain ⟨hb, hoff⟩ := hr
    subst hb
    subst hoff
    simp only [apply_ite (fun f : Enc => f j), upd]
    split_ifs <;> first | rfl | (exfalso; omega)
  | revealColor =>
    simp [encodeLastActionItem, htm, moveTypeIndex, isHintMove,
      isPlayDiscard] at hr
    obtain ⟨hb, hoff⟩ := hr
    subst hb
    subst hoff
    have hwb : ∀ bx : Enc, writeBitmaskBits item.revealBitmask g.handSize
        (start + g.numPlayers + 4 + g.numPlayers + g.numColors +
          g.numRanks) bx j = bx j := by
      intro bx
      show (if start + g.numPlayers + 4 + g.numPlayers + g.numColors +
          g.numRanks ≤ j ∧ j < start + g.numPlayers + 4 + g.numPlayers +
          g.numColors + g.numRanks + g.handSize ∧
          Nat.testBit item.revealBitmask
            (j - (start + g.numPlayers + 4 + g.numPlayers + g.numColors +
              g.numRanks)) = true then (1 : ℚ) else bx j) = bx j
      rw [if_neg]
      rintro ⟨h1, h2, h3⟩
      omega
    have hmod : (item.player + item.move.targetOffset) % g.numPlayers <
        g.numPlayers := Nat.mod_lt _ hP
    simp only [apply_ite (fun f : Enc => f j), hwb, upd]
    split_ifs <;> first | rfl | (exfalso; omega)
  | revealRank =>
    simp [encodeLastActionItem, htm, moveTypeIndex, isHintMove,
      isPlayDiscard] at hr
    obtain ⟨hb, hoff⟩ := hr
    subst hb
    subst hoff
    have hwb : ∀ bx : Enc, writeBitmaskBits item.revealBitmask g.handSize
        (start + g.numPlayers + 4 + g.numPlayers + g.numColors +
          g.numRanks) bx j = bx j := by
      intro bx
      show (if start + g.numPlayers + 4 + g.numPlayers + g.numColors +
          g.numRanks ≤ j ∧ j < start + g.numPlayers + 4 + g.numPlayers +
          g.numColors + g.numRanks + g.handSize ∧
          Nat.testBit item.revealBitmask
            (j - (start + g.numPlayers + 4 + g.numPlayers + g.numColors +
              g.numRanks)) = true then (1 : ℚ) else bx j) = bx j
      rw [if_neg]
      rintro ⟨h1, h2, h3⟩
      omega
    have hmod : (item.player + item.move.targetOffset) % g.numPlayers <
        g.numPlayers := Nat.mod_lt _ hP
    simp only [apply_ite (fun f : Enc => f j), hwb, upd]
    split_ifs <;> first | rfl | (exfalso; omega)

/-- EncodeLastAction_ writes nothing at or beyond its end cursor. -/
theorem encodeLastAction_uframe (g : HanabiGame) (obs : HanabiObservation)
    (hP : 0 < g.numPlayers)
    (hitem : ∀ item, getLastNonDealMove obs.lastMoves = some item →
      itemWF g item) (start : Nat) (b : Enc) :
    ∀ r, encodeLastAction_ g obs start b = some r →
      ∀ j, r.2 ≤ j → r.1 j = b j := by
  intro r hr j hj
  cases hlm : getLastNonDealMove obs.lastMoves with
  | none =>
    simp only [encodeLastAction_, hlm, Option.some.injEq] at hr
    rw [← hr]
  | some item =>
    simp only [encodeLastAction_, hlm] at hr
    exact encodeLastActionItem_uframe g item hP (hitem item hlm) start b r
      hr j hj

/-- EncodeLastAction_ succeeds whenever the last non-deal move, if any,
is well formed. -/
theorem encodeLastAction_isSome (g : HanabiGame) (obs : HanabiObservation)
    (hitem : ∀ item, getLastNonDealMove obs.lastMoves = some item →
      itemWF g item) (start : Nat) (b : Enc) :
    ∃ r, encodeLastAction_ g obs start b = some r := by
  cases hlm : getLastNonDealMove obs.lastMoves with
  | none =>
    exact ⟨(b, start + lastActionSectionLength g), by
      simp only [encodeLastAction_, hlm]⟩
  | some item =>
    cases hm : moveTypeIndex item.move.moveType with
    | none => exact absurd hm (hitem item hlm).2.2.2.2.2
    | some k =>
      simp only [encodeLastAction_, hlm, encodeLastActionItem, hm]
      exact ⟨_, rfl⟩

/-- Total length of the four sections written before the card-knowledge
section. -/
def frontLen (g : HanabiGame) : Nat :=
  handsSectionLength g + boardSectionLength g + discardSectionLength g +
    lastActionSectionLength g

/-- Characterization of the final section of a full Encode: it aborts
exactly when an occupied slot has a non-positive V0 total, and on
success holds the in-place V0 belief over the raw knowledge bits. -/
theorem encode_v0_section (g : HanabiGame) (obs : HanabiObservation)
    (showOwn : Bool)
    (hnum : obs.hands.length = g.numPlayers)
    (hcl : ∀ h ∈ obs.hands, h.cards.length ≤ g.handSize)
    (hkl : ∀ h ∈ obs.hands, h.knowledge.length ≤ g.handSize)
    (hkwf : ∀ h ∈ obs.hands, knowledgeListWF g h.knowledge)
    (hP : 0 < g.numPlayers) (hHS : 0 < g.handSize)
    (hmin : g.isMinimal = false)
    (hvalid : ∀ h ∈ obs.hands, ∀ card ∈ h.cards,
      card.color < g.numColors ∧ card.rank < g.numRanks)
    (hdeck : g.maxDeckSize =
      ((List.range g.numColors).map (rowInstSum g)).sum)
    (hdk : obs.deckSize ≤ g.maxDeckSize - g.handSize * g.numPlayers)
    (hfw : ∀ c, obs.fireworks c ≤ g.numRanks)
    (hinfo : obs.informationTokens ≤ g.maxInformationTokens)
    (hlife : obs.lifeTokens ≤ g.maxLifeTokens)
    (hdc : ∀ c < g.numColors, ∀ rk < g.numRanks,
      discardCount g.numRanks obs.discardPile (cardIndex c rk g.numRanks) ≤
        g.numberCardInstances c rk)
    (hitem : ∀ item, getLastNonDealMove obs.lastMoves = some item →
      itemWF g item)
    (cc : Nat → Int) (hcc : computeCardCount g obs = some cc) :
    (encode g obs showOwn = none ↔
      ∃ p < g.numPlayers, ∃ k < (nthHand obs.hands p).cards.length,
        slotPreTotal g cc (knowledgeAt obs.hands p k) ≤ 0) ∧
    (∀ r, encode g obs showOwn = some r →
      (∀ p < g.numPlayers, ∀ k < (nthHand obs.hands p).cards.length,
        ∀ i < bitsPerCard g,
          r.1 (baseOf g (frontLen g) (p, k) + i) =
            knowledgeBitQ g (knowledgeAt obs.hands p k) i * (cc i : ℚ) /
              slotPreTotal g cc (knowledgeAt obs.hands p k)) ∧
      (∀ p < g.numPlayers, ∀ k < g.handSize, ∀ i < perCardLen g,
        ((nthHand obs.hands p).cards.length ≤ k ∨ bitsPerCard g ≤ i) →
          r.1 (baseOf g (frontLen g) (p, k) + i) =
            knowledgeBitQ g (knowledgeAt obs.hands p k) i)) := by
  have hr1l := encodeHands_len g obs showOwn hnum hcl 0 zeroEnc
  have hr2l := encodeBoard_len g obs (encodeHands g obs showOwn 0 zeroEnc).2
    (encodeHands g obs showOwn 0 zeroEnc).1
  have hr3l := encodeDiscards_len g obs hdeck
    (encodeBoard g obs (encodeHands g obs showOwn 0 zeroEnc).2
      (encodeHands g obs showOwn 0 zeroEnc).1).2
    (encodeBoard g obs (encodeHands g obs showOwn 0 zeroEnc).2
      (encodeHands g obs showOwn 0 zeroEnc).1).1
  obtain ⟨r4, hr4⟩ := encodeLastAction_isSome g obs hitem
    (encodeDiscards g obs
      (encodeBoard g obs (encodeHands g obs showOwn 0 zeroEnc).2
        (encodeHands g obs showOwn 0 zeroEnc).1).2
      (encodeBoard g obs (encodeHands g obs showOwn 0 zeroEnc).2
        (encodeHands g obs showOwn 0 zeroEnc).1).1).2
    (encodeDiscards g obs
      (encodeBoard g obs (encodeHands g obs showOwn 0 zeroEnc).2
        (encodeHands g obs showOwn 0 zeroEnc).1).2
      (encodeBoard g obs (encodeHands g obs showOwn 0 zeroEnc).2
        (encodeHands g obs showOwn 0 zeroEnc).1).1).1
  have hr4l := encodeLastAction_len g obs _ _ r4 hr4
  have hK : r4.2 = frontLen g := by
    rw [hr4l, hr3l, hr2l, hr1l, frontLen]
    omega
  have hz : ∀ j, r4.2 ≤ j → r4.1 j = 0 := by
    intro j hjj
    rw [encodeLastAction_uframe g obs hP hitem _ _ r4 hr4 j hjj]
    rw [encodeDiscards_uframe g obs hdeck hdc]
    · rw [encodeBoard_uframe g obs hdk hfw hinfo hlife]
      · rw [encodeHands_uframe g obs showOwn hnum hcl hvalid]
        · rfl
        · rw [← hr1l]
          omega
      · rw [← hr2l]
        omega
    · rw [← hr3l]
      omega
  obtain ⟨hiff, hsome⟩ := encodeV0_master g obs r4.2 r4.1 hz hnum hcl hkl
    hkwf hP hHS cc hcc
  have hunf : encode g obs showOwn =
      match encodeV0Belief_ g obs r4.2 r4.1 with
      | none => none
      | some r5 => some (r5.1, r4.2 + r5.2.1) := by
    rw [encode]
    simp only [hr4]
    rw [if_neg (by simp [hmin])]
  constructor
  · rw [hunf]
    constructor
    · intro hnone
      cases hv : encodeV0Belief_ g obs r4.2 r4.1 with
      | none => exact hiff.mp hv
      | some r5 =>
        rw [hv] at hnone
        exact absurd hnone (by simp)
    · intro hex
      rw [hiff.mpr hex]
  · intro r hr
    rw [hunf] at hr
    cases hv : encodeV0Belief_ g obs r4.2 r4.1 with
    | none =>
      rw [hv] at hr
      exact absurd hr (by simp)
    | some r5 =>
      rw [hv] at hr
      simp only [Option.some.injEq] at hr
      obtain ⟨-, hval, hother⟩ := hsome r5 hv
      subst hr
      refine ⟨?_, ?_⟩
      · intro p hp k hk i hi
        rw [← hK]
        exact hval p hp k hk i hi
      · intro p hp k hk i hi hout
        rw [← hK]
        exact hother p hp k hk i hi hout

/-- A full Encode succeeds when every occupied slot has a positive V0
total (and the observation is well formed). -/
theorem encode_isSome_of_pos (g : HanabiGame) (obs : HanabiObservation)
    (showOwn : Bool)
    (hnum : obs.hands.length = g.numPlayers)
    (hcl : ∀ h ∈ obs.hands, h.cards.length ≤ g.handSize)
    (hkl : ∀ h ∈ obs.hands, h.knowledge.length ≤ g.handSize)
    (hkwf : ∀ h ∈ obs.hands, knowledgeListWF g h.knowledge)
    (hP : 0 < g.numPlayers) (hHS : 0 < g.handSize)
    (hmin : g.isMinimal = false)
    (hvalid : ∀ h ∈ obs.hands, ∀ card ∈ h.cards,
      card.color < g.numColors ∧ card.rank < g.numRanks)
    (hdeck : g.maxDeckSize =
      ((List.range g.numColors).map (rowInstSum g)).sum)
    (hdk : obs.deckSize ≤ g.maxDeckSize - g.handSize * g.numPlayers)
    (hfw : ∀ c, obs.fireworks c ≤ g.numRanks)
    (hinfo : obs.informationTokens ≤ g.maxInformationTokens)
    (hlife : obs.lifeTokens ≤ g.maxLifeTokens)
    (hdc : ∀ c < g.numColors, ∀ rk < g.numRanks,
      discardCount g.numRanks obs.discardPile (cardIndex c rk g.numRanks) ≤
        g.numberCardInstances c rk)
    (hitem : ∀ item, getLastNonDealMove obs.lastMoves = some item →
      itemWF g item)
    (cc : Nat → Int) (hcc : computeCardCount g obs = some cc)
    (hpos : ∀ p < g.numPlayers, ∀ k < (nthHand obs.hands p).cards.length,
      0 < slotPreTotal g cc (knowledgeAt obs.hands p k)) :
    ∃ r, encode g obs showOwn = some r := by
  obtain ⟨hiff, -⟩ := encode_v0_section g obs showOwn hnum hcl hkl hkwf hP
    hHS hmin hvalid hdeck hdk hfw hinfo hlife hdc hitem cc hcc
  cases hv : encode g obs showOwn with
  | none =>
    obtain ⟨p, hp, k, hk, hle⟩ := hiff.mp hv
    exact absurd (hpos p hp k hk) (not_lt.mpr hle)
  | some r => exact ⟨r, rfl⟩

/-- C10: in the non-minimal mode the final section of Encode holds the
in-place V0 belief: each occupied slot's colors×ranks sub-block holds
the count-weighted normalized probabilities (summing to 1), while the
trailing hint entries of each slot and all entries of unoccupied slots
keep the raw 0/1 card-knowledge bits. -/
theorem encode_final_section_v0_in_place (g : HanabiGame)
    (obs : HanabiObservation) (showOwn : Bool)
    (hnum : obs.hands.length = g.numPlayers)
    (hcl : ∀ h ∈ obs.hands, h.cards.length ≤ g.handSize)
    (hkl : ∀ h ∈ obs.hands, h.knowledge.length ≤ g.handSize)
    (hkwf : ∀ h ∈ obs.hands, knowledgeListWF g h.knowledge)
    (hP : 0 < g.numPlayers) (hHS : 0 < g.handSize)
    (hmin : g.isMinimal = false)
    (hvalid : ∀ h ∈ obs.hands, ∀ card ∈ h.cards,
      card.color < g.numColors ∧ card.rank < g.numRanks)
    (hdeck : g.maxDeckSize =
      ((List.range g.numColors).map (rowInstSum g)).sum)
    (hdk : obs.deckSize ≤ g.maxDeckSize - g.handSize * g.numPlayers)
    (hfw : ∀ c, obs.fireworks c ≤ g.numRanks)
    (hinfo : obs.informationTokens ≤ g.maxInformationTokens)
    (hlife : obs.lifeTokens ≤ g.maxLifeTokens)
    (hdc : ∀ c < g.numColors, ∀ rk < g.numRanks,
      discardCount g.numRanks obs.discardPile (cardIndex c rk g.numRanks) ≤
        g.numberCardInstances c rk)
    (hitem : ∀ item, getLastNonDealMove obs.lastMoves = some item →
      itemWF g item)
    (cc : Nat → Int) (hcc : computeCardCount g obs = some cc) :
    ∀ r, encode g obs showOwn = some r →
      (∀ p < g.numPlayers, ∀ k < (nthHand obs.hands p).cards.length,
        (∀ i < bitsPerCard g,
          r.1 (baseOf g (frontLen g) (p, k) + i) =
            knowledgeBitQ g (knowledgeAt obs.hands p k) i * (cc i : ℚ) /
              slotPreTotal g cc (knowledgeAt obs.hands p k)) ∧
        (∑ i ∈ Finset.range (bitsPerCard g),
          r.1 (baseOf g (frontLen g) (p, k) + i)) = 1) ∧
      (∀ p < g.numPlayers, ∀ k < g.handSize, ∀ i < perCardLen g,
        ((nthHand obs.hands p).cards.length ≤ k ∨ bitsPerCard g ≤ i) →
          r.1 (baseOf g (frontLen g) (p, k) + i) =
            knowledgeBitQ g (knowledgeAt obs.hands p k) i) := by
  obtain ⟨hiff, hsome⟩ := encode_v0_section g obs showOwn hnum hcl hkl hkwf
    hP hHS hmin hvalid hdeck hdk hfw hinfo hlife hdc hitem cc hcc
  intro r hr
  obtain ⟨hval, hother⟩ := hsome r hr
  have hpos : ∀ p < g.numPlayers, ∀ k < (nthHand obs.hands p).cards.length,
      0 < slotPreTotal g cc (knowledgeAt obs.hands p k) := by
    intro p hp k hk
    by_contra hle
    rw [hiff.mpr ⟨p, hp, k, hk, not_lt.mp hle⟩] at hr
    exact absurd hr (by simp)
  refine ⟨fun p hp k hk => ⟨hval p hp k hk, ?_⟩, hother⟩
  rw [Finset.sum_congr rfl
    (fun i hi => hval p hp k hk i (Finset.mem_range.mp hi)),
    ← Finset.sum_div]
  have h2eq : (∑ i ∈ Finset.range (bitsPerCard g),
      knowledgeBitQ g (knowledgeAt obs.hands p k) i * (cc i : ℚ)) =
    slotPreTotal g cc (knowledgeAt obs.hands p k) := rfl
  rw [h2eq, div_self (ne_of_gt (hpos p hp k hk))]

theorem encode_final_section_v0_in_place_witness :
    gTiny.isMinimal = false ∧
    ∃ r, encode gTiny obsTinyFull false = some r ∧
      (∑ i ∈ Finset.range (bitsPerCard gTiny),
        r.1 (baseOf gTiny (frontLen gTiny) (0, 0) + i)) = 1 ∧
      r.1 (baseOf gTiny (frontLen gTiny) (0, 0) + bitsPerCard gTiny) =
        knowledgeBitQ gTiny (knowledgeAt obsTinyFull.hands 0 0)
          (bitsPerCard gTiny) := by
  have hkwf : ∀ h ∈ obsTinyFull.hands,
      knowledgeListWF gTiny h.knowledge := by
    intro h hm
    have hm2 : h ∈ [handTiny] := hm
    rw [List.mem_singleton] at hm2
    subst hm2
    intro kn hkn
    have hkn2 : kn ∈ [knTiny] := hkn
    rw [List.mem_singleton] at hkn2
    subst hkn2
    exact ⟨fun _ => by decide, fun _ => by decide⟩
  have hcl : ∀ h ∈ obsTinyFull.hands,
      h.cards.length ≤ gTiny.handSize := by
    intro h hm
    have hm2 : h ∈ [handTiny] := hm
    rw [List.mem_singleton] at hm2
    subst hm2
    decide
  have hkl : ∀ h ∈ obsTinyFull.hands,
      h.knowledge.length ≤ gTiny.handSize := by
    intro h hm
    have hm2 : h ∈ [handTiny] := hm
    rw [List.mem_singleton] at hm2
    subst hm2
    decide
  have hvalid : ∀ h ∈ obsTinyFull.hands, ∀ card ∈ h.cards,
      card.color < gTiny.numColors ∧ card.rank < gTiny.numRanks := by
    intro h hm card hcm
    have hm2 : h ∈ [handTiny] := hm
    rw [List.mem_singleton] at hm2
    subst hm2
    have hcm2 : card ∈ [({ color := 0, rank := 0, valid := true } :
        HanabiCard)] := hcm
    rw [List.mem_singleton] at hcm2
    subst hcm2
    exact ⟨by decide, by decide⟩
  have hitem : ∀ item,
      getLastNonDealMove obsTinyFull.lastMoves = some item →
      itemWF gTiny item := by
    intro item h
    simp [getLastNonDealMove, obsTinyFull] at h
  have hpre : slotPreTotal gTiny (initialCardCount gTiny)
      (knowledgeAt obsTinyFull.hands 0 0) = 1 := by
    rw [slotPreTotal, show bitsPerCard gTiny = 1 from rfl,
      Finset.sum_range_one,
      show knowledgeBitQ gTiny (knowledgeAt obsTinyFull.hands 0 0) 0 = 1
        from rfl,
      show initialCardCount gTiny 0 = 1 from rfl]
    norm_num
  have hpos : ∀ p < gTiny.numPlayers,
      ∀ k < (nthHand obsTinyFull.hands p).cards.length,
      0 < slotPreTotal gTiny (initialCardCount gTiny)
        (knowledgeAt obsTinyFull.hands p k) := by
    intro p hp k hk
    have hp0 : p = 0 := by
      have h1 : gTiny.numPlayers = 1 := rfl
      omega
    subst hp0
    have hk0 : k = 0 := by
      have h1 : (nthHand obsTinyFull.hands 0).cards.length = 1 := rfl
      omega
    subst hk0
    rw [hpre]
    norm_num
  obtain ⟨r, hr⟩ := encode_isSome_of_pos gTiny obsTinyFull false rfl hcl
    hkl hkwf (by decide) (by decide) rfl hvalid (by decide) (by decide)
    (fun c => Nat.zero_le _) (by decide) (by decide) (by decide) hitem
    (initialCardCount gTiny) rfl hpos
  obtain ⟨hval, hother⟩ := encode_final_section_v0_in_place gTiny
    obsTinyFull false rfl hcl hkl hkwf (by decide) (by decide) rfl hvalid
    (by decide) (by decide) (fun c => Nat.zero_le _) (by decide)
    (by decide) (by decide) hitem (initialCardCount gTiny) rfl r hr
  refine ⟨rfl, r, hr, (hval 0 (by decide) 0 (by decide)).2, ?_⟩
  exact hother 0 (by decide) 0 (by decide) (bitsPerCard gTiny) (by decide)
    (Or.inr (Nat.le_refl _))
